import Mathlib

/-!
# A verification development for the Texas Hold'em engine

Shallow embedding of the poker core of this repository:
* `cards.py` — card model, deck, 5-card poker-hand evaluation
  (`PokerHand._evaluate_hand`, `PokerHand._check_straight`,
  `PokerHand.__lt__`), best-of-7 selection (`evaluate_best_poker_hand`);
* `poker_engine.py` — the table engine (`PokerEngine`): seats, blinds,
  betting rounds, pots, showdown.

Python machine integers are arbitrary-precision, so chip amounts are
modelled as `Int` and card values as `Nat`.  Fallible Python code
(`raise ValueError`) is modelled with `Option`.
-/

namespace HRC

/-! ## Card model (`cards.py`) -/

/-- A playing card: `Card.rank`/`Card.suit` strings and the
game-dependent numeric `value` computed at construction time.
For the poker game the value comes from `CARD_RANKS` (2..14, ace high). -/
structure Card where
  rank : String
  suit : String
  value : Nat
deriving DecidableEq, Repr, Inhabited

/-- `CARD_SUITS` from `cards.py`, in source order. -/
def CARD_SUITS : List String := ["♠️", "♥️", "♦️", "♣️"]

/-- `CARD_RANKS` from `cards.py`: insertion-ordered rank/value pairs
(the poker mapping, ace high). -/
def CARD_RANKS : List (String × Nat) :=
  [("2", 2), ("3", 3), ("4", 4), ("5", 5), ("6", 6), ("7", 7), ("8", 8),
   ("9", 9), ("10", 10), ("J", 11), ("Q", 12), ("K", 13), ("A", 14)]

/-- `Card.__str__`: rank followed by suit. -/
def cardStr (c : Card) : String := c.rank ++ c.suit

/-- `Deck.build` for `num_decks=1, game='poker'`: iterate suits (outer)
and ranks (inner), each card taking its poker value.  The subsequent
`random.shuffle` is a uniformly random permutation; the engine claims
proved here are quantified over the deck order (or use one concrete
order, which is a legal shuffle outcome), so the permutation itself is
taken as an input rather than modelled probabilistically. -/
def pokerDeckCards : List Card :=
  CARD_SUITS.flatMap (fun s => CARD_RANKS.map (fun rv => ⟨rv.1, s, rv.2⟩))

/-- `Deck.deal`: pop a card from the end of the list; when the deck is
empty, `build()` re-creates a full deck first (`cards.py` also
reshuffles it — the fresh permutation is unmodelled because a poker
hand deals at most 23 of the 52 cards, so the rebuild is unreachable
in every state this development evaluates). -/
def dealFrom (d : List Card) : Card × List Card :=
  let d' := if d.isEmpty then pokerDeckCards else d
  (d'.getLastD ⟨"", "", 0⟩, d'.dropLast)

/-! ## Hand evaluator (`cards.py`) -/

/-- Python's `sorted(values, reverse=True)`: the descending sort of a
list of naturals (stable sorting of naturals is determined by the
multiset, so Mathlib's insertion sort computes the same list). -/
def sortDesc (l : List Nat) : List Nat := l.insertionSort (· ≥ ·)

/-- Ascending sort (used by the spec-side side-pot construction). -/
def sortAsc (l : List Int) : List Int := l.insertionSort (· ≤ ·)

/-- Structural helper for `uniqKeepFirst`: drop elements already seen. -/
def uniqAux {α : Type _} [DecidableEq α] : List α → List α → List α
  | [], _ => []
  | x :: xs, seen => if x ∈ seen then uniqAux xs seen else x :: uniqAux xs (x :: seen)

/-- The keys of `Counter(values)` in insertion order (also Python's
dict-grouping order in general): the distinct elements of `l`, keeping
first occurrences. -/
def uniqKeepFirst {α : Type _} [DecidableEq α] (l : List α) : List α := uniqAux l []

/-- `all(sorted_values[i] - sorted_values[i+1] == 1 ...)` over adjacent
pairs.  Python subtraction on a descending list agrees with `Nat`
subtraction here (an ascending pair gives a non-positive difference in
Python and `0` in `Nat`, both `≠ 1`). -/
def consecDesc : List Nat → Bool
  | a :: b :: rest => decide (a - b = 1) && consecDesc (b :: rest)
  | _ => true

/-- `PokerHand._check_straight` on the descending value list: the wheel
`[14,5,4,3,2]` is a straight with high card 5; otherwise five
consecutive values form a straight with the first (largest) value as
the high card. -/
def checkStraight (sv : List Nat) : Bool × Nat :=
  if sv = [14, 5, 4, 3, 2] then (true, 5)
  else if consecDesc sv then (true, sv.headD 0)
  else (false, 0)

/-- The body of `PokerHand._evaluate_hand` after the length guard,
as a function of the descending value list and the flush flag
(the only data of the 5 cards it reads). -/
def coreFromVals (values : List Nat) (flush : Bool) : Nat × List Nat :=
  let st := checkStraight values
  if st.1 && flush then
    if st.2 ≠ 14 then (9, [st.2]) else (10, [])
  else
    let distinct := uniqKeepFirst values
    let hcounts := sortDesc (distinct.map (fun r => values.count r))
    if hcounts.headD 0 = 4 then
      let four_kind := (distinct.filter (fun r => values.count r = 4)).headD 0
      let kicker := (values.filter (fun r => r ≠ four_kind)).headD 0
      (8, [four_kind, kicker])
    else if hcounts = [3, 2] then
      let three_kind := (distinct.filter (fun r => values.count r = 3)).headD 0
      let pair := (distinct.filter (fun r => values.count r = 2)).headD 0
      (7, [three_kind, pair])
    else if flush then (6, values)
    else if st.1 then (5, [st.2])
    else if hcounts.headD 0 = 3 then
      let three_kind := (distinct.filter (fun r => values.count r = 3)).headD 0
      let kickers := sortDesc (values.filter (fun r => r ≠ three_kind))
      (4, three_kind :: kickers)
    else if hcounts = [2, 2, 1] then
      let pairs := sortDesc (distinct.filter (fun r => values.count r = 2))
      let kicker := (distinct.filter (fun r => values.count r = 1)).headD 0
      (3, pairs ++ [kicker])
    else if hcounts.headD 0 = 2 then
      let pair := (distinct.filter (fun r => values.count r = 2)).headD 0
      let kickers := sortDesc (values.filter (fun r => r ≠ pair))
      (2, pair :: kickers)
    else (1, values)

/-- `sorted([c.value for c in self.cards], reverse=True)`. -/
def handValues (cs : List Card) : List Nat := sortDesc (cs.map (·.value))

/-- `len(set(suits)) == 1`: Python's `set` is the finset of the list. -/
def isFlush (cs : List Card) : Bool := (cs.map (·.suit)).toFinset.card = 1

/-- `PokerHand._evaluate_hand` on an exactly-5-card hand. -/
def evaluate5core (cs : List Card) : Nat × List Nat :=
  coreFromVals (handValues cs) (isFlush cs)

/-- `PokerHand.__init__` + `_evaluate_hand`: `none` models the
`ValueError` raised when the hand does not have exactly 5 cards. -/
def evaluate5 (cs : List Card) : Option (Nat × List Nat) :=
  if cs.length = 5 then some (evaluate5core cs) else none

/-- The tie-break loop of `PokerHand.__lt__`:
`for my_val, other_val in zip(...): if my_val != other_val: return my_val < other_val`,
falling through to `False` when `zip` is exhausted. -/
def lexZipLt : List Nat → List Nat → Bool
  | a :: as_, b :: bs => if a ≠ b then decide (a < b) else lexZipLt as_ bs
  | _, _ => false

/-- `PokerHand.__lt__` on the `(ranking, rank_values)` pair. -/
def handLt (x y : Nat × List Nat) : Bool :=
  if x.1 ≠ y.1 then decide (x.1 < y.1) else lexZipLt x.2 y.2

/-- `itertools.combinations(cards, k)` in its enumeration order:
subsets containing the head first. -/
def combinations : Nat → List α → List (List α)
  | 0, _ => [[]]
  | _ + 1, [] => []
  | k + 1, x :: xs => (combinations k xs).map (x :: ·) ++ combinations (k + 1) xs

/-- One step of the best-hand fold in `evaluate_best_poker_hand`:
`if best_hand is None or hand > best_hand: best_hand = hand`
(Python's `hand > best_hand` evaluates `best_hand.__lt__(hand)`). -/
def bestStep (best : Option (Nat × List Nat)) (combo : List Card) :
    Option (Nat × List Nat) :=
  match evaluate5 combo, best with
  | some h, none => some h
  | some h, some b => if handLt b h then some h else some b
  | none, b => b

/-- `evaluate_best_poker_hand`: `none` models the `ValueError` for fewer
than 5 cards; exactly 5 cards evaluate directly; otherwise every
5-card combination is evaluated and the best is kept. -/
def evaluate_best (cards : List Card) : Option (Nat × List Nat) :=
  if cards.length < 5 then none
  else if cards.length = 5 then evaluate5 cards
  else (combinations 5 cards).foldl bestStep none

/-! ## Evaluator lemmas -/

/-- The number of tie-break values `_evaluate_hand` emits for each tier. -/
def tierLen : Nat → Nat
  | 1 => 5
  | 2 => 4
  | 3 => 3
  | 4 => 3
  | 5 => 1
  | 6 => 5
  | 7 => 2
  | 8 => 2
  | 9 => 1
  | _ => 0

theorem headD_mem {α : Type _} {l : List α} (d : α) (h : l ≠ []) : l.headD d ∈ l := by
  cases l <;> simp_all

theorem sortDesc_perm (l : List Nat) : List.Perm (sortDesc l) l :=
  List.perm_insertionSort _ l

theorem sortDesc_length (l : List Nat) : (sortDesc l).length = l.length :=
  (sortDesc_perm l).length_eq

theorem sortDesc_eq_of_perm {l₁ l₂ : List Nat} (h : List.Perm l₁ l₂) :
    sortDesc l₁ = sortDesc l₂ :=
  List.eq_of_perm_of_sorted
    ((List.perm_insertionSort _ _).trans (h.trans (List.perm_insertionSort _ _).symm))
    (List.sorted_insertionSort _ _) (List.sorted_insertionSort _ _)

theorem uniqKeepFirst_ne_nil {l : List Nat} (h : l ≠ []) : uniqKeepFirst l ≠ [] := by
  cases l with
  | nil => exact absurd rfl h
  | cons x xs => simp [uniqKeepFirst, uniqAux]

theorem filter_ne_length (l : List Nat) (a : Nat) :
    (l.filter (fun x => x ≠ a)).length = l.length - l.count a := by
  induction l with
  | nil => simp
  | cons x xs ih =>
    have hc := List.count_le_length (l := xs) (a := a)
    simp only [ne_eq, decide_not] at ih ⊢
    by_cases hx : x = a <;>
      simp [List.filter_cons, List.count_cons, hx, ih] <;> omega

theorem headD_filter_spec (p : Nat → Bool) (l : List Nat)
    (h : ∃ r ∈ l, p r) : p ((l.filter p).headD 0) = true := by
  obtain ⟨r, hr, hpr⟩ := h
  have hne : l.filter p ≠ [] := by
    intro hnil
    have : r ∈ l.filter p := List.mem_filter.mpr ⟨hr, hpr⟩
    simp [hnil] at this
  have := headD_mem 0 hne
  exact (List.mem_filter.mp this).2

/-- The head of the descending-sorted counts list is the count of some
distinct value. -/
theorem exists_count_of_headD (values : List Nat) (hne : values ≠ []) (k : Nat)
    (hk : (sortDesc ((uniqKeepFirst values).map (fun r => values.count r))).headD 0 = k) :
    ∃ r ∈ uniqKeepFirst values, values.count r = k := by
  have hd : uniqKeepFirst values ≠ [] := uniqKeepFirst_ne_nil hne
  have hm : (uniqKeepFirst values).map (fun r => values.count r) ≠ [] := by
    simpa using hd
  have hs : sortDesc ((uniqKeepFirst values).map (fun r => values.count r)) ≠ [] := by
    intro h0
    have := sortDesc_length ((uniqKeepFirst values).map (fun r => values.count r))
    rw [h0] at this
    exact hm (List.length_eq_zero.mp this.symm)
  have hmem := headD_mem 0 hs
  rw [hk] at hmem
  have : k ∈ (uniqKeepFirst values).map (fun r => values.count r) :=
    (sortDesc_perm _).mem_iff.mp hmem
  obtain ⟨r, hr, hrk⟩ := List.mem_map.mp this
  exact ⟨r, hr, hrk⟩

/-- Number of distinct values whose count is `c`, read off the sorted
counts list. -/
theorem filter_count_length (values : List Nat) (L : List Nat) (c : Nat)
    (hL : sortDesc ((uniqKeepFirst values).map (fun r => values.count r)) = L) :
    ((uniqKeepFirst values).filter (fun r => values.count r = c)).length =
      L.countP (fun k => k = c) := by
  have h1 : ((uniqKeepFirst values).filter (fun r => values.count r = c)).length =
      (uniqKeepFirst values).countP (fun r => values.count r = c) :=
    (List.countP_eq_length_filter _ _).symm
  have h2 : ((uniqKeepFirst values).map (fun r => values.count r)).countP
      (fun k => k = c) = (uniqKeepFirst values).countP (fun r => values.count r = c) :=
    List.countP_map _ _ _
  have h3 : ((uniqKeepFirst values).map (fun r => values.count r)).countP
      (fun k => k = c) = L.countP (fun k => k = c) := by
    rw [← hL]
    exact ((sortDesc_perm _).countP_eq _).symm
  rw [h1, ← h2, h3]


theorem coreFromVals_spec (values : List Nat) (flush : Bool) (h5 : values.length = 5) :
    1 ≤ (coreFromVals values flush).1 ∧ (coreFromVals values flush).1 ≤ 10 ∧
    (coreFromVals values flush).2.length = tierLen (coreFromVals values flush).1 := by
  have hne : values ≠ [] := by intro h; rw [h] at h5; simp at h5
  simp only [coreFromVals]
  by_cases hsf : ((checkStraight values).1 && flush) = true
  · rw [if_pos hsf]
    by_cases h14 : (checkStraight values).2 ≠ 14
    · rw [if_pos h14]; exact ⟨by norm_num, by norm_num, rfl⟩
    · rw [if_neg h14]; exact ⟨by norm_num, by norm_num, rfl⟩
  · rw [if_neg hsf]
    by_cases h4 : (sortDesc ((uniqKeepFirst values).map (fun r => values.count r))).headD 0 = 4
    · rw [if_pos h4]; exact ⟨by norm_num, by norm_num, rfl⟩
    · rw [if_neg h4]
      by_cases h32 : sortDesc ((uniqKeepFirst values).map (fun r => values.count r)) = [3, 2]
      · rw [if_pos h32]; exact ⟨by norm_num, by norm_num, rfl⟩
      · rw [if_neg h32]
        by_cases hfl : flush = true
        · rw [if_pos hfl]
          refine ⟨by norm_num, by norm_num, ?_⟩
          simpa [tierLen] using h5
        · rw [if_neg hfl]
          by_cases hst : (checkStraight values).1 = true
          · rw [if_pos hst]; exact ⟨by norm_num, by norm_num, rfl⟩
          · rw [if_neg hst]
            by_cases h3 : (sortDesc ((uniqKeepFirst values).map (fun r => values.count r))).headD 0 = 3
            · rw [if_pos h3]
              refine ⟨by norm_num, by norm_num, ?_⟩
              obtain ⟨r, hr, hcnt⟩ := exists_count_of_headD values hne 3 h3
              have hcnt3 : values.count
                  (((uniqKeepFirst values).filter (fun r => values.count r = 3)).headD 0) = 3 := by
                simpa using headD_filter_spec (fun r => values.count r = 3)
                  (uniqKeepFirst values) ⟨r, hr, by simp [hcnt]⟩
              dsimp only
              rw [List.length_cons, sortDesc_length, filter_ne_length, hcnt3, h5]
              decide
            · rw [if_neg h3]
              by_cases h221 : sortDesc ((uniqKeepFirst values).map (fun r => values.count r)) = [2, 2, 1]
              · rw [if_pos h221]
                refine ⟨by norm_num, by norm_num, ?_⟩
                have hlen := filter_count_length values [2, 2, 1] 2 h221
                dsimp only
                rw [List.length_append, sortDesc_length, hlen]
                simp only [List.length_singleton]
                decide
              · rw [if_neg h221]
                by_cases h2 : (sortDesc ((uniqKeepFirst values).map (fun r => values.count r))).headD 0 = 2
                · rw [if_pos h2]
                  refine ⟨by norm_num, by norm_num, ?_⟩
                  obtain ⟨r, hr, hcnt⟩ := exists_count_of_headD values hne 2 h2
                  have hcnt2 : values.count
                      (((uniqKeepFirst values).filter (fun r => values.count r = 2)).headD 0) = 2 := by
                    simpa using headD_filter_spec (fun r => values.count r = 2)
                      (uniqKeepFirst values) ⟨r, hr, by simp [hcnt]⟩
                  dsimp only
                  rw [List.length_cons, sortDesc_length, filter_ne_length, hcnt2, h5]
                  decide
                · rw [if_neg h2]
                  refine ⟨by norm_num, by norm_num, ?_⟩
                  simpa [tierLen] using h5



/-! ## Claims C6 and C7 -/

/-- Claim C6: `evaluate5` on the wheel `[A,5,4,3,2]` with mixed suits
returns the straight tier (5) with tie-break high card 5 (not 14), and
this hand ranks strictly below the straight `[6,5,4,3,2]` under
`PokerHand.__lt__`. -/
theorem claim_C6_wheel :
    evaluate5 [⟨"A", "♠️", 14⟩, ⟨"5", "♥️", 5⟩, ⟨"4", "♦️", 4⟩,
               ⟨"3", "♣️", 3⟩, ⟨"2", "♠️", 2⟩] = some (5, [5]) ∧
    evaluate5 [⟨"6", "♠️", 6⟩, ⟨"5", "♥️", 5⟩, ⟨"4", "♦️", 4⟩,
               ⟨"3", "♣️", 3⟩, ⟨"2", "♠️", 2⟩] = some (5, [6]) ∧
    handLt (5, [5]) (5, [6]) = true := by
  refine ⟨?_, ?_, ?_⟩ <;> decide

/-- Claim C7: `evaluate5` is invariant under permutation of its input
cards (same `(tier, tie-break)` result), and whenever it returns a
result its tier lies in `[1, 10]`. -/
theorem claim_C7_evaluate5_perm_and_tier_range :
    (∀ cs cs' : List Card, List.Perm cs cs' → evaluate5 cs = evaluate5 cs') ∧
    (∀ cs t l, evaluate5 cs = some (t, l) → 1 ≤ t ∧ t ≤ 10) := by
  constructor
  · intro cs cs' h
    unfold evaluate5
    rw [h.length_eq]
    by_cases h5 : cs'.length = 5
    · rw [if_pos h5, if_pos h5]
      unfold evaluate5core handValues isFlush
      rw [sortDesc_eq_of_perm (h.map _), List.toFinset_eq_of_perm _ _ (h.map _)]
    · rw [if_neg h5, if_neg h5]
  · intro cs t l h
    unfold evaluate5 at h
    by_cases h5 : cs.length = 5
    · rw [if_pos h5] at h
      have hv : (handValues cs).length = 5 := by
        unfold handValues
        rw [sortDesc_length, List.length_map, h5]
      have hs := coreFromVals_spec (handValues cs) (isFlush cs) hv
      have : evaluate5core cs = (t, l) := Option.some.inj h
      unfold evaluate5core at this
      rw [this] at hs
      exact ⟨hs.1, hs.2.1⟩
    · rw [if_neg h5] at h
      exact absurd h (by simp)

/-- Witness for C7 at a concrete hand: the wheel and one of its
permutations evaluate identically, and the returned tier 5 is in
`[1, 10]`. -/
theorem claim_C7_witness :
    evaluate5 [⟨"A", "♠️", 14⟩, ⟨"5", "♥️", 5⟩, ⟨"4", "♦️", 4⟩,
               ⟨"3", "♣️", 3⟩, ⟨"2", "♠️", 2⟩] =
      evaluate5 [⟨"2", "♠️", 2⟩, ⟨"3", "♣️", 3⟩, ⟨"4", "♦️", 4⟩,
                 ⟨"5", "♥️", 5⟩, ⟨"A", "♠️", 14⟩] ∧
    (1 ≤ 5 ∧ 5 ≤ 10) :=
  ⟨claim_C7_evaluate5_perm_and_tier_range.1 _ _ (by decide),
   claim_C7_evaluate5_perm_and_tier_range.2
     [⟨"A", "♠️", 14⟩, ⟨"5", "♥️", 5⟩, ⟨"4", "♦️", 4⟩, ⟨"3", "♣️", 3⟩, ⟨"2", "♠️", 2⟩]
     5 [5] (by decide)⟩


/-! ## The (tier, tie-break) order on evaluator outputs -/

/-- Every `_evaluate_hand` output carries exactly `tierLen tier`
tie-break values; pairs of this shape are the ones `__lt__` totally
orders. -/
def structuredRank (x : Nat × List Nat) : Prop := x.2.length = tierLen x.1

theorem evaluate5_structured {c : List Card} {x : Nat × List Nat}
    (h : evaluate5 c = some x) : structuredRank x := by
  unfold evaluate5 at h
  by_cases h5 : c.length = 5
  · rw [if_pos h5] at h
    have hv : (handValues c).length = 5 := by
      unfold handValues
      rw [sortDesc_length, List.length_map, h5]
    have hs := (coreFromVals_spec (handValues c) (isFlush c) hv).2.2
    have hx : evaluate5core c = x := Option.some.inj h
    unfold evaluate5core at hx
    rw [hx] at hs
    exact hs
  · rw [if_neg h5] at h
    exact absurd h (by simp)

theorem lexZipLt_irrefl (l : List Nat) : lexZipLt l l = false := by
  induction l with
  | nil => rfl
  | cons a t ih => simp [lexZipLt, ih]

theorem lexZipLt_asymm_eq : ∀ {l₁ l₂ : List Nat}, l₁.length = l₂.length →
    lexZipLt l₁ l₂ = false → lexZipLt l₂ l₁ = false → l₁ = l₂ := by
  intro l₁
  induction l₁ with
  | nil =>
    intro l₂ hlen _ _
    exact (List.length_eq_zero.mp hlen.symm).symm
  | cons a t ih =>
    intro l₂ hlen h12 h21
    cases l₂ with
    | nil => simp at hlen
    | cons b s =>
      by_cases hab : a = b
      · subst hab
        simp only [lexZipLt, ne_eq, not_true_eq_false, if_false, ite_false] at h12 h21
        have := ih (by simpa using hlen) h12 h21
        rw [this]
      · simp [lexZipLt, hab] at h12
        simp [lexZipLt, Ne.symm hab] at h21
        omega

theorem lexZipLt_trans : ∀ {l₁ l₂ l₃ : List Nat}, l₁.length = l₂.length →
    l₂.length = l₃.length → lexZipLt l₁ l₂ = true → lexZipLt l₂ l₃ = true →
    lexZipLt l₁ l₃ = true := by
  intro l₁
  induction l₁ with
  | nil =>
    intro l₂ l₃ hlen _ h12 _
    rw [(List.length_eq_zero.mp hlen.symm)] at h12
    simp [lexZipLt] at h12
  | cons a t ih =>
    intro l₂ l₃ hlen hlen' h12 h23
    cases l₂ with
    | nil => simp at hlen
    | cons b s =>
      cases l₃ with
      | nil => simp at hlen'
      | cons c u =>
        by_cases hab : a = b <;> by_cases hbc : b = c
        · subst hab; subst hbc
          simp only [lexZipLt, ne_eq, not_true_eq_false, if_false, ite_false] at h12 h23 ⊢
          exact ih (by simpa using hlen) (by simpa using hlen') h12 h23
        · subst hab
          simp only [lexZipLt, ne_eq, not_true_eq_false, if_false, ite_false] at h12
          simp only [lexZipLt, ne_eq] at h23 ⊢
          rw [if_pos hbc] at h23 ⊢
          exact h23
        · subst hbc
          simp only [lexZipLt, ne_eq] at h12 ⊢
          rw [if_pos hab] at h12 ⊢
          exact h12
        · simp only [lexZipLt, ne_eq] at h12 h23 ⊢
          rw [if_pos hab, decide_eq_true_eq] at h12
          rw [if_pos hbc, decide_eq_true_eq] at h23
          have hac : a < c := Nat.lt_trans h12 h23
          rw [if_pos (Nat.ne_of_lt hac : ¬ a = c), decide_eq_true_eq]
          exact hac

theorem handLt_irrefl (x : Nat × List Nat) : handLt x x = false := by
  simp [handLt, lexZipLt_irrefl]

theorem handLt_asymm_eq {a b : Nat × List Nat} (ha : structuredRank a)
    (hb : structuredRank b) (h1 : handLt a b = false) (h2 : handLt b a = false) :
    a = b := by
  unfold handLt at h1 h2
  by_cases ht : a.1 = b.1
  · rw [if_neg (by simpa using ht)] at h1
    rw [if_neg (by simp [ht])] at h2
    have hlen : a.2.length = b.2.length := by
      rw [ha, hb, ht]
    have := lexZipLt_asymm_eq hlen h1 h2
    exact Prod.ext ht this
  · rw [if_pos ht, decide_eq_false_iff_not] at h1
    rw [if_pos (Ne.symm ht), decide_eq_false_iff_not] at h2
    omega

theorem handLt_trans {a b c : Nat × List Nat} (ha : structuredRank a)
    (hb : structuredRank b) (hc : structuredRank c) (h1 : handLt a b = true)
    (h2 : handLt b c = true) : handLt a c = true := by
  unfold handLt at h1 h2 ⊢
  by_cases hab : a.1 = b.1 <;> by_cases hbc : b.1 = c.1
  · rw [if_neg (by simpa using hab)] at h1
    rw [if_neg (by simpa using hbc)] at h2
    rw [if_neg (by simp [hab, hbc])]
    have l1 : a.2.length = b.2.length := by rw [ha, hb, hab]
    have l2 : b.2.length = c.2.length := by rw [hb, hc, hbc]
    exact lexZipLt_trans l1 l2 h1 h2
  · rw [if_pos hbc, decide_eq_true_eq] at h2
    have : a.1 < c.1 := by omega
    rw [if_pos (by omega), decide_eq_true_eq]
    exact this
  · rw [if_pos hab, decide_eq_true_eq] at h1
    have : a.1 < c.1 := by omega
    rw [if_pos (by omega), decide_eq_true_eq]
    exact this
  · rw [if_pos hab, decide_eq_true_eq] at h1
    rw [if_pos hbc, decide_eq_true_eq] at h2
    have : a.1 < c.1 := Nat.lt_trans h1 h2
    rw [if_pos (by omega), decide_eq_true_eq]
    exact this

/-! ## Combination lemmas -/

theorem length_of_mem_combinations {α : Type _} :
    ∀ (l : List α) (k : Nat) (c : List α), c ∈ combinations k l → c.length = k := by
  intro l
  induction l with
  | nil =>
    intro k c hc
    cases k with
    | zero => simp [combinations] at hc; simp [hc]
    | succ k => simp [combinations] at hc
  | cons x xs ih =>
    intro k c hc
    cases k with
    | zero => simp [combinations] at hc; simp [hc]
    | succ k =>
      simp only [combinations, List.mem_append, List.mem_map] at hc
      rcases hc with ⟨c', hc', rfl⟩ | hc
      · simp [ih k c' hc']
      · exact ih (k + 1) c hc

theorem combinations_ne_nil {α : Type _} :
    ∀ (l : List α) (k : Nat), k ≤ l.length → combinations k l ≠ [] := by
  intro l
  induction l with
  | nil =>
    intro k hk
    have : k = 0 := by simpa using hk
    subst this
    simp [combinations]
  | cons x xs ih =>
    intro k hk
    cases k with
    | zero => simp [combinations]
    | succ k =>
      have h1 : combinations k xs ≠ [] := ih k (by simpa using hk)
      simp only [combinations]
      intro hap
      rcases List.append_eq_nil.mp hap with ⟨hm, _⟩
      exact h1 (List.map_eq_nil_iff.mp hm)



/-- Invariant of the `evaluate_best_poker_hand` fold: starting from a
structured accumulator, the fold returns a structured result that is a
member of (accumulator + evaluated combos) and is not `__lt__` any of
them. -/
theorem foldl_bestStep_spec :
    ∀ (l : List (List Card)) (b : Nat × List Nat),
    (∀ c ∈ l, c.length = 5) → structuredRank b →
    ∃ r, l.foldl bestStep (some b) = some r ∧ structuredRank r ∧
      (r = b ∨ ∃ c ∈ l, evaluate5 c = some r) ∧
      handLt r b = false ∧
      (∀ c ∈ l, ∀ h, evaluate5 c = some h → handLt r h = false) := by
  intro l
  induction l with
  | nil =>
    intro b _ hb
    exact ⟨b, rfl, hb, Or.inl rfl, handLt_irrefl b, by simp⟩
  | cons c0 rest ih =>
    intro b hlen hb
    obtain ⟨h0, hh0⟩ : ∃ h0, evaluate5 c0 = some h0 := by
      unfold evaluate5
      rw [if_pos (hlen c0 (by simp))]
      exact ⟨_, rfl⟩
    have hsh0 : structuredRank h0 := evaluate5_structured hh0
    by_cases hlt : handLt b h0 = true
    · -- the head hand replaces the accumulator
      obtain ⟨r, hr, hsr, hmem, hdom, hall⟩ :=
        ih h0 (fun c hc => hlen c (List.mem_cons_of_mem _ hc)) hsh0
      have hstep : bestStep (some b) c0 = some h0 := by
        unfold bestStep
        rw [hh0]
        show (if handLt b h0 = true then some h0 else some b) = some h0
        rw [if_pos hlt]
      refine ⟨r, ?_, hsr, ?_, ?_, ?_⟩
      · rw [List.foldl_cons, hstep]
        exact hr
      · rcases hmem with rfl | ⟨c, hc, hcr⟩
        · exact Or.inr ⟨c0, by simp, hh0⟩
        · exact Or.inr ⟨c, List.mem_cons_of_mem _ hc, hcr⟩
      · -- r is not below b: otherwise r < b < h0 contradicts r ⊀ h0
        by_cases hrb : handLt r b = true
        · exact absurd (handLt_trans hsr hb hsh0 hrb hlt) (by simp [hdom])
        · simpa using hrb
      · intro c hc h hh
        rcases List.mem_cons.mp hc with rfl | hc'
        · have : h = h0 := by rw [hh] at hh0; exact Option.some.inj hh0
          rw [this]
          exact hdom
        · exact hall c hc' h hh
    · -- the accumulator survives the head comparison
      have hlt' : handLt b h0 = false := by simpa using hlt
      obtain ⟨r, hr, hsr, hmem, hdom, hall⟩ :=
        ih b (fun c hc => hlen c (List.mem_cons_of_mem _ hc)) hb
      have hstep : bestStep (some b) c0 = some b := by
        unfold bestStep
        rw [hh0]
        show (if handLt b h0 = true then some h0 else some b) = some b
        rw [if_neg (by simp [hlt'])]
      refine ⟨r, ?_, hsr, ?_, hdom, ?_⟩
      · rw [List.foldl_cons, hstep]
        exact hr
      · rcases hmem with rfl | ⟨c, hc, hcr⟩
        · exact Or.inl rfl
        · exact Or.inr ⟨c, List.mem_cons_of_mem _ hc, hcr⟩
      · intro c hc h hh
        rcases List.mem_cons.mp hc with rfl | hc'
        · have hh0' : h = h0 := by rw [hh] at hh0; exact Option.some.inj hh0
          subst hh0'
          -- r ⊀ h: else compare r with b: r = b gives b < h, contradiction;
          -- b < r gives b < h by transitivity, contradiction
          by_cases hrh : handLt r h = true
          · by_cases hbr : handLt b r = true
            · exact absurd (handLt_trans hb hsr hsh0 hbr hrh) (by simp [hlt'])
            · have : r = b := handLt_asymm_eq hsr hb hdom (by simpa using hbr)
              rw [this] at hrh
              exact absurd hrh (by simp [hlt'])
          · simpa using hrh
        · exact hall c hc' h hh

/-- Claim C3: on every 7-card input, `evaluate_best_poker_hand` returns
the maximum, under the `(tier, tie-break)` order of `PokerHand.__lt__`,
of `evaluate5` over the 21 five-card subsets: the result is one of the
subset evaluations, every subset evaluation is either strictly below it
or equal to it, and equal `(tier, tie-break)` pairs compare as equal
(neither side is `__lt__` the other), so ties are preserved. -/
theorem claim_C3_evaluate_best_max (cs : List Card) (h7 : cs.length = 7) :
    ∃ r, evaluate_best cs = some r ∧
      some r ∈ (combinations 5 cs).map evaluate5 ∧
      (∀ h, some h ∈ (combinations 5 cs).map evaluate5 →
        handLt h r = true ∨ h = r) ∧
      handLt r r = false := by
  have hlen5 : ∀ c ∈ combinations 5 cs, c.length = 5 :=
    fun c hc => length_of_mem_combinations cs 5 c hc
  obtain ⟨c0, rest, hcr⟩ : ∃ c0 rest, combinations 5 cs = c0 :: rest := by
    rcases hne : combinations 5 cs with _ | ⟨c0, rest⟩
    · exact absurd hne (combinations_ne_nil cs 5 (by omega))
    · exact ⟨c0, rest, rfl⟩
  have hc0 : c0 ∈ combinations 5 cs := by rw [hcr]; simp
  obtain ⟨h0, hh0⟩ : ∃ h0, evaluate5 c0 = some h0 := by
    unfold evaluate5
    rw [if_pos (hlen5 c0 hc0)]
    exact ⟨_, rfl⟩
  have hstep : bestStep none c0 = some h0 := by
    unfold bestStep
    rw [hh0]
  obtain ⟨r, hr, hsr, hmem, hdom, hall⟩ :=
    foldl_bestStep_spec rest h0
      (fun c hc => hlen5 c (by rw [hcr]; exact List.mem_cons_of_mem _ hc))
      (evaluate5_structured hh0)
  have hfold : evaluate_best cs = some r := by
    unfold evaluate_best
    rw [if_neg (by omega), if_neg (by omega), hcr, List.foldl_cons, hstep]
    exact hr
  refine ⟨r, hfold, ?_, ?_, handLt_irrefl r⟩
  · rcases hmem with rfl | ⟨c, hc, hcr'⟩
    · exact List.mem_map.mpr ⟨c0, hc0, hh0⟩
    · exact List.mem_map.mpr ⟨c, by rw [hcr]; exact List.mem_cons_of_mem _ hc, hcr'⟩
  · intro h hmem'
    obtain ⟨c, hc, hch⟩ := List.mem_map.mp hmem'
    have hsh : structuredRank h := evaluate5_structured hch
    have hrh : handLt r h = false := by
      rw [hcr] at hc
      rcases List.mem_cons.mp hc with rfl | hc'
      · have : h = h0 := by rw [hch] at hh0; exact Option.some.inj hh0
        subst this
        by_cases hrh0 : handLt r h = true
        · by_cases hh0r : handLt h r = true
          · exact absurd (handLt_trans hsh hsr hsh hh0r hrh0) (by simp [handLt_irrefl])
          · exact absurd hrh0 (by simp [hdom])
        · simpa using hrh0
      · exact hall c hc' h hch
    by_cases hhr : handLt h r = true
    · exact Or.inl hhr
    · exact Or.inr (handLt_asymm_eq hsh hsr (by simpa using hhr) hrh)

/-- Witness for C3 at a concrete 7-card input (a royal flush plus two
low cards). -/
theorem claim_C3_witness :
    ∃ r, evaluate_best [⟨"A", "♠️", 14⟩, ⟨"K", "♠️", 13⟩, ⟨"Q", "♠️", 12⟩,
        ⟨"J", "♠️", 11⟩, ⟨"10", "♠️", 10⟩, ⟨"3", "♥️", 3⟩, ⟨"2", "♦️", 2⟩] = some r ∧
      some r ∈ (combinations 5 [⟨"A", "♠️", 14⟩, ⟨"K", "♠️", 13⟩, ⟨"Q", "♠️", 12⟩,
        ⟨"J", "♠️", 11⟩, ⟨"10", "♠️", 10⟩, ⟨"3", "♥️", 3⟩, ⟨"2", "♦️", 2⟩]).map evaluate5 ∧
      (∀ h, some h ∈ (combinations 5 [⟨"A", "♠️", 14⟩, ⟨"K", "♠️", 13⟩, ⟨"Q", "♠️", 12⟩,
        ⟨"J", "♠️", 11⟩, ⟨"10", "♠️", 10⟩, ⟨"3", "♥️", 3⟩, ⟨"2", "♦️", 2⟩]).map evaluate5 →
        handLt h r = true ∨ h = r) ∧
      handLt r r = false :=
  claim_C3_evaluate_best_max _ (by rfl)



/-! ## Table engine (`poker_engine.py`) -/

/-- `GamePhase` enum. -/
inductive GamePhase
  | WAITING
  | PRE_FLOP
  | FLOP
  | TURN
  | RIVER
  | SHOWDOWN
  | FINISHED
deriving DecidableEq, Repr, Inhabited

/-- The `.value` strings of `GamePhase`. -/
def GamePhase.value : GamePhase → String
  | .WAITING => "waiting"
  | .PRE_FLOP => "pre_flop"
  | .FLOP => "flop"
  | .TURN => "turn"
  | .RIVER => "river"
  | .SHOWDOWN => "showdown"
  | .FINISHED => "finished"

/-- `PlayerAction` enum. -/
inductive PlayerAction
  | FOLD
  | CHECK
  | CALL
  | RAISE
  | ALL_IN
deriving DecidableEq, Repr, Inhabited

/-- The `.value` strings of `PlayerAction`. -/
def PlayerAction.value : PlayerAction → String
  | .FOLD => "fold"
  | .CHECK => "check"
  | .CALL => "call"
  | .RAISE => "raise"
  | .ALL_IN => "all_in"

/-- The `Player` dataclass. -/
structure Player where
  user_id : Nat
  name : String
  starting_chips : Int
  chips : Int
  is_bot : Bool
  hole_cards : List Card
  current_bet : Int
  total_bet_in_hand : Int
  is_folded : Bool
  is_all_in : Bool
  is_sitting_out : Bool
deriving DecidableEq, Repr

instance : Inhabited Player :=
  ⟨⟨0, "", 0, 0, false, [], 0, 0, false, false, false⟩⟩

/-- The `Pot` dataclass: an amount and the user ids eligible to win it. -/
structure Pot where
  amount : Int
  eligible_players : List Nat
deriving DecidableEq, Repr, Inhabited

/-- One entry of `action_history`. -/
structure ActionRecord where
  player_id : Nat
  action : String
  amount : Int
deriving DecidableEq, Repr

/-- The `PokerEngine` state.  Indices (`dealer_index`,
`current_player_index`, `last_raiser_index`) are `-1` or an index into
`players`, as in the source. -/
structure PokerEngine where
  channel_id : Nat
  small_blind : Int
  big_blind : Int
  players : List Player
  deck : List Card
  community_cards : List Card
  pots : List Pot
  phase : GamePhase
  dealer_index : Int
  current_player_index : Int
  last_raiser_index : Int
  current_bet_amount : Int
  min_raise_amount : Int
  hand_number : Nat
  action_history : List ActionRecord
deriving DecidableEq, Repr

/-- `PokerEngine.__init__` (the source defaults are
`small_blind=10, big_blind=20`; the fresh `Deck` is shuffled randomly,
and one legal shuffle outcome — the build order — is used, since this
initial deck is replaced before it is ever dealt from). -/
def PokerEngine.init (channel_id : Nat) (small_blind big_blind : Int) : PokerEngine :=
  { channel_id := channel_id
    small_blind := small_blind
    big_blind := big_blind
    players := []
    deck := pokerDeckCards
    community_cards := []
    pots := [⟨0, []⟩]
    phase := GamePhase.WAITING
    dealer_index := -1
    current_player_index := -1
    last_raiser_index := -1
    current_bet_amount := 0
    min_raise_amount := 0
    hand_number := 0
    action_history := [] }

/-- `PokerEngine.get_active_players`. -/
def getActivePlayers (e : PokerEngine) (in_hand_only not_all_in : Bool) : List Player :=
  let l := e.players.filter (fun p => !p.is_sitting_out)
  let l := if in_hand_only then l.filter (fun p => !p.is_folded) else l
  if not_all_in then l.filter (fun p => !p.is_all_in) else l

/-- `PokerEngine._get_next_player_index`: scan offsets `1..len(players)`
from `start_index`, modulo the table size, skipping sitting-out seats
(and folded / all-in seats per the flags); `-1` when nobody qualifies.
Python `%` on a positive modulus agrees with `Int.emod`. -/
def getNextPlayerIndex (players : List Player) (start_index : Int)
    (in_hand_only not_all_in : Bool) : Int :=
  match (List.range players.length).findSome? (fun j =>
    let idx := ((start_index + (j : Int) + 1).emod (players.length : Int)).toNat
    match players.get? idx with
    | none => none
    | some p =>
      if p.is_sitting_out then none
      else if in_hand_only && p.is_folded then none
      else if not_all_in && p.is_all_in then none
      else some (idx : Int)) with
  | some v => v
  | none => -1

/-- `PokerEngine.add_player`. -/
def addPlayer (e : PokerEngine) (user_id : Nat) (name : String) (chips : Int)
    (is_bot : Bool) : PokerEngine × Bool :=
  if 9 ≤ e.players.length ∨ e.players.any (fun p => p.user_id == user_id) then
    (e, false)
  else
    ({ e with players :=
        e.players ++ [Player.mk user_id name chips chips is_bot [] 0 0 false false false] },
     true)

/-- Index of the first list element satisfying the predicate. -/
def idxOfFirst {α : Type _} (p : α → Bool) : List α → Option Nat
  | [] => none
  | x :: xs => if p x then some 0 else (idxOfFirst p xs).map (· + 1)

/-- Index of the player `_get_player_by_id` would return (the first
seat with the given id). -/
def findPlayerIdx (e : PokerEngine) (user_id : Nat) : Option Nat :=
  idxOfFirst (fun p => p.user_id == user_id) e.players

/-- `PokerEngine._get_player_by_id`. -/
def getPlayerById (e : PokerEngine) (user_id : Nat) : Option Player :=
  e.players.find? (fun p => p.user_id == user_id)

/-- `PokerEngine.remove_player`: outside `WAITING` the seat is marked
sitting-out and folded; in `WAITING` it is removed from the list
(`list.remove` drops the first element equal to the found player, which
is the found index itself, as an earlier equal element would carry the
same id and have been found first). -/
def removePlayer (e : PokerEngine) (user_id : Nat) : PokerEngine × Bool :=
  match findPlayerIdx e user_id with
  | none => (e, false)
  | some i =>
    if e.phase ≠ GamePhase.WAITING then
      let p := e.players.getD i default
      ({ e with players := e.players.set i { p with is_sitting_out := true, is_folded := true } },
       true)
    else
      ({ e with players := e.players.eraseIdx i }, true)

/-- `PokerEngine._post_bet`: move `min(amount, chips)` from the seat's
stack into its round and hand contributions; a stack reaching 0 sets
the all-in flag.  An out-of-range index would raise `IndexError` in
Python; the engine only ever passes in-range indices, and the model
returns the state unchanged there. -/
def postBet (e : PokerEngine) (player_index : Nat) (amount : Int) : PokerEngine :=
  match e.players.get? player_index with
  | none => e
  | some p =>
    let bet_amount := min amount p.chips
    let p := { p with chips := p.chips - bet_amount,
                      current_bet := p.current_bet + bet_amount,
                      total_bet_in_hand := p.total_bet_in_hand + bet_amount }
    let p := if p.chips = 0 then { p with is_all_in := true } else p
    { e with players := e.players.set player_index p }

/-- `PokerEngine._post_blinds`.  With at least one non-sitting-out seat
the blind indices are non-negative; `Int.toNat` only deviates from
Python's negative-index wrap-around on an empty table, where
`start_new_hand` never calls this. -/
def postBlinds (e : PokerEngine) : PokerEngine :=
  let active := getActivePlayers e false false
  let sb_index := getNextPlayerIndex e.players e.dealer_index false false
  let bb_index := getNextPlayerIndex e.players sb_index false false
  let pair :=
    if active.length = 2 then
      let sb := e.dealer_index
      (sb, getNextPlayerIndex e.players sb false false)
    else (sb_index, bb_index)
  let e := postBet e pair.1.toNat e.small_blind
  let e := postBet e pair.2.toNat e.big_blind
  { e with current_bet_amount := e.big_blind,
           min_raise_amount := e.big_blind,
           current_player_index := getNextPlayerIndex e.players pair.2 false false,
           last_raiser_index := pair.2 }

/-- One step of the hole-card dealing loop of `start_new_hand`: a card
to the seat `i+1` left of the button, unless it sits out. -/
def dealHoleStep (e : PokerEngine) (i : Nat) : PokerEngine :=
  let idx := ((e.dealer_index + 1 + (i : Int)).emod (e.players.length : Int)).toNat
  match e.players.get? idx with
  | none => e
  | some p =>
    if p.is_sitting_out then e
    else
      let dealt := dealFrom e.deck
      { e with deck := dealt.2,
               players := e.players.set idx { p with hole_cards := p.hole_cards ++ [dealt.1] } }

/-- The hole-card dealing loop of `start_new_hand`: one card to each of
`nActive` offsets left of the button (skipping sitting-out seats). -/
def dealHoleRound (e : PokerEngine) (nActive : Nat) : PokerEngine :=
  (List.range nActive).foldl dealHoleStep e

/-- The per-player reset loop at the top of `start_new_hand`. -/
def resetForHand (p : Player) : Player :=
  { p with hole_cards := [], current_bet := 0, total_bet_in_hand := 0,
           is_folded := false, is_all_in := false }

/-- `PokerEngine.start_new_hand`.  The freshly shuffled `Deck` the source
allocates is passed in as `freshDeck` (the shuffle being the only
randomness). -/
def startNewHand (e : PokerEngine) (freshDeck : List Card) : PokerEngine × Bool :=
  let active := getActivePlayers e false false
  if active.length < 2 then (e, false)
  else
    let e : PokerEngine := { e with
      hand_number := e.hand_number + 1
      deck := freshDeck
      community_cards := []
      pots := [Pot.mk 0 (active.map (fun p => p.user_id))]
      action_history := []
      phase := GamePhase.PRE_FLOP
      players := e.players.map resetForHand }
    let e := { e with dealer_index := getNextPlayerIndex e.players e.dealer_index false false }
    let e := dealHoleRound (dealHoleRound e active.length) active.length
    (postBlinds e, true)

/-- `PokerEngine.get_current_player`. -/
def getCurrentPlayer (e : PokerEngine) : Option Player :=
  if e.current_player_index = -1 then none
  else e.players.get? e.current_player_index.toNat

/-- `PokerEngine.get_valid_actions`. -/
def getValidActions (e : PokerEngine) (p : Player) : List PlayerAction :=
  if p.is_folded || p.is_all_in || p.is_sitting_out then []
  else
    let actions := [PlayerAction.FOLD, PlayerAction.ALL_IN]
    let bet_to_call := e.current_bet_amount - p.current_bet
    let actions :=
      if bet_to_call = 0 then actions ++ [PlayerAction.CHECK]
      else if p.chips > bet_to_call then actions ++ [PlayerAction.CALL]
      else actions
    if p.chips > bet_to_call then actions ++ [PlayerAction.RAISE] else actions

/-- `PokerEngine._is_betting_round_complete`. -/
def isBettingRoundComplete (e : PokerEngine) : Bool :=
  let active := getActivePlayers e true false
  if active.length ≤ 1 then true
  else
    let acting := getActivePlayers e true true
    if acting.isEmpty then true
    else if acting.any (fun p => p.current_bet ≠ e.current_bet_amount) then false
    else decide (e.current_player_index = e.last_raiser_index)

/-- `PokerEngine._create_side_pots` — the source's "simplified" version:
one single pot holding every seat's whole-hand contribution, eligible to
all non-folded active seats. -/
def createSidePots (e : PokerEngine) : PokerEngine :=
  let total_pot := (e.players.map (fun p => p.total_bet_in_hand)).sum
  { e with pots := [Pot.mk total_pot ((getActivePlayers e true false).map (fun p => p.user_id))] }

/-- One reveal step of `_deal_community`. -/
def dealCommunityStep (e : PokerEngine) (_ : Nat) : PokerEngine :=
  let dealt := dealFrom e.deck
  { e with deck := dealt.2, community_cards := e.community_cards ++ [dealt.1] }

/-- `PokerEngine._deal_community`: burn one card, then reveal `count`. -/
def dealCommunity (e : PokerEngine) (count : Nat) : PokerEngine :=
  let burn := dealFrom e.deck
  (List.range count).foldl dealCommunityStep { e with deck := burn.2 }

/-- Python list comparison (`<`) on the tie-break lists, used by the
`hand_evals.sort` key (true lexicographic order: a strict prefix is
smaller). -/
def pyListLt : List Nat → List Nat → Bool
  | [], [] => false
  | [], _ :: _ => true
  | _ :: _, [] => false
  | a :: as_, b :: bs => if a < b then true else if b < a then false else pyListLt as_ bs

/-- Python tuple comparison on `(ranking, rank_values)` sort keys. -/
def pyKeyLt (x y : Nat × List Nat) : Bool :=
  if x.1 < y.1 then true else if y.1 < x.1 then false else pyListLt x.2 y.2

/-- The key of `hand_evals[0]` after
`hand_evals.sort(key=..., reverse=True)`: the first-encountered maximal
key (Python's sort is stable, so the head of the reverse-sorted list is
exactly the first maximum; only key equality is consumed downstream). -/
def maxEvalKey : List (Nat × List Nat) → Nat × List Nat
  | [] => (0, [])
  | k :: ks => ks.foldl (fun (acc x : Nat × List Nat) => if pyKeyLt acc x then x else acc) k

/-- One iteration of the pot loop in `_determine_winners`.  The
`evaluate_best` call cannot see fewer than 5 cards in engine-reachable
states (2 or more contenders only occur at showdown, with 5 community
cards); the `getD` default stands in for the `ValueError` Python would
raise there. -/
def payPot (e : PokerEngine) (pot : Pot) : PokerEngine :=
  let eligible_contenders := e.players.filter
    (fun p => pot.eligible_players.contains p.user_id && !p.is_folded)
  if eligible_contenders.isEmpty then e
  else
    let pot_winners :=
      if eligible_contenders.length = 1 then eligible_contenders
      else
        let hand_evals := eligible_contenders.map
          (fun p => (p, (evaluate_best (p.hole_cards ++ e.community_cards)).getD (0, [])))
        let best_hand := maxEvalKey (hand_evals.map (fun pe => pe.2))
        (hand_evals.filter (fun pe => pe.2 == best_hand)).map (fun pe => pe.1)
    if pot_winners.isEmpty then e
    else
      let win_amount := pot.amount.fdiv (pot_winners.length : Int)
      { e with players := e.players.map (fun p =>
          if pot_winners.any (fun w => w == p) then
            { p with chips := p.chips + win_amount }
          else p) }

/-- `PokerEngine._determine_winners` (state effects only: the
`winners_data` list the source also returns is presentation data and is
not consumed by the engine).  Python `//` is floor division, `Int.fdiv`.
-/
def determineWinners (e : PokerEngine) : PokerEngine :=
  let e := { e with phase := GamePhase.FINISHED }
  e.pots.foldl payPot e

/-- The round-reset loop of `_next_phase`. -/
def clearRoundBet (p : Player) : Player := { p with current_bet := 0 }

/-- The opening of `_next_phase`: rebuild the pot, clear round bets,
reset the betting amounts and recompute the first actor. -/
def roundReset (e : PokerEngine) : PokerEngine :=
  let e := createSidePots e
  let e : PokerEngine := { e with
    players := e.players.map clearRoundBet,
    current_bet_amount := 0,
    min_raise_amount := e.big_blind }
  let e := { e with current_player_index := getNextPlayerIndex e.players e.dealer_index true true }
  { e with last_raiser_index := e.current_player_index }

/-- `_next_phase` up to (but not including) the final
winner-determination check: the reset above, then the phase advance and
community-card deals. -/
def nextPhaseCore (e : PokerEngine) : PokerEngine :=
  let e := roundReset e
  if e.phase = GamePhase.PRE_FLOP then dealCommunity { e with phase := GamePhase.FLOP } 3
  else if e.phase = GamePhase.FLOP then dealCommunity { e with phase := GamePhase.TURN } 1
  else if e.phase = GamePhase.TURN then dealCommunity { e with phase := GamePhase.RIVER } 1
  else if e.phase = GamePhase.RIVER then { e with phase := GamePhase.SHOWDOWN }
  else e

/-- `PokerEngine._next_phase`. -/
def nextPhase (e : PokerEngine) : PokerEngine :=
  if (nextPhaseCore e).phase = GamePhase.SHOWDOWN ∨
      (getActivePlayers (nextPhaseCore e) true false).length ≤ 1 then
    determineWinners (nextPhaseCore e)
  else nextPhaseCore e

/-- The tail of `execute_action` after a successful mutation: record
the action in the history, then either advance the phase (round
complete) or pass the turn to the next acting seat. -/
def finishAction (e1 : PokerEngine) (player_id : Nat) (action : PlayerAction)
    (amount : Int) : PokerEngine × Bool :=
  let e2 := { e1 with action_history :=
    e1.action_history ++ [ActionRecord.mk player_id action.value amount] }
  if isBettingRoundComplete e2 then (nextPhase e2, true)
  else
    ({ e2 with current_player_index :=
        getNextPlayerIndex e2.players e2.current_player_index true true }, true)

/-- `PokerEngine.execute_action`.  The found player (first seat whose id
matches) is compared with the current player by dataclass value
equality; chip movements go through `current_player_index`, exactly as
the source does via object references.  When the current player is a
seat, `current_player_index` is in range, so `Int.toNat` is faithful. -/
def executeAction (e : PokerEngine) (player_id : Nat) (action : PlayerAction)
    (amount : Int) : PokerEngine × Bool :=
  match findPlayerIdx e player_id with
  | none => (e, false)
  | some idx =>
    let player := e.players.getD idx default
    if getCurrentPlayer e ≠ some player then (e, false)
    else if action ∉ getValidActions e player then (e, false)
    else
      let cpi := e.current_player_index.toNat
      let step : Option PokerEngine :=
        match action with
        | PlayerAction.FOLD =>
          some { e with players := e.players.set idx { player with is_folded := true } }
        | PlayerAction.CHECK => some e
        | PlayerAction.CALL =>
          let call_amount := e.current_bet_amount - player.current_bet
          some (postBet e cpi call_amount)
        | PlayerAction.ALL_IN => some (postBet e cpi player.chips)
        | PlayerAction.RAISE =>
          let call_amount := e.current_bet_amount - player.current_bet
          let raise_amount := amount - e.current_bet_amount
          if amount < e.current_bet_amount + e.min_raise_amount then none
          else
            let e1 := postBet e cpi (call_amount + raise_amount)
            some { e1 with
              current_bet_amount := (e1.players.getD idx default).current_bet,
              min_raise_amount := raise_amount,
              last_raiser_index := (cpi : Int) }
      match step with
      | none => (e, false)
      | some e1 => finishAction e1 player_id action amount

/-- One per-seat entry of the `get_game_state` snapshot. -/
structure PlayerView where
  user_id : Nat
  name : String
  chips : Int
  current_bet : Int
  is_folded : Bool
  is_all_in : Bool
  is_dealer : Bool
  is_current : Bool
  hole_cards : List String
deriving DecidableEq, Repr, Inhabited

/-- The `get_game_state` snapshot dictionary. -/
structure GameStateSnapshot where
  phase : String
  community_cards_display : List String
  pot_total : Int
  current_bet : Int
  players : List PlayerView
deriving DecidableEq, Repr

/-- `PokerEngine.get_game_state`.  `self.players.index(p)` is the first
index holding a player equal to `p`, which exists since `p` ranges over
the list. -/
def getGameState (e : PokerEngine) : GameStateSnapshot :=
  { phase := e.phase.value
    community_cards_display := e.community_cards.map cardStr
    pot_total := (e.pots.map (fun pot => pot.amount)).sum
    current_bet := e.current_bet_amount
    players := e.players.map (fun p =>
      { user_id := p.user_id
        name := p.name
        chips := p.chips
        current_bet := p.current_bet
        is_folded := p.is_folded
        is_all_in := p.is_all_in
        is_dealer := decide ((e.players.indexOf p : Int) = e.dealer_index)
        is_current := decide (getCurrentPlayer e = some p)
        hole_cards := p.hole_cards.map cardStr }) }



/-! ## Coherence of player lookup -/

theorem find?_eq_idxOfFirst {α : Type _} [Inhabited α] (p : α → Bool) (l : List α) :
    l.find? p = (idxOfFirst p l).map (fun i => l.getD i default) := by
  induction l with
  | nil => rfl
  | cons x xs ih =>
    by_cases hx : p x
    · simp [List.find?, idxOfFirst, hx]
    · simp only [List.find?, idxOfFirst, hx, Bool.false_eq_true, if_false, ite_false,
        Option.map_map, ih]
      rfl

theorem getPlayerById_models (e : PokerEngine) (uid : Nat) :
    getPlayerById e uid =
      (findPlayerIdx e uid).map (fun i => e.players.getD i default) :=
  find?_eq_idxOfFirst _ _

theorem idxOfFirst_lt_length {α : Type _} (p : α → Bool) :
    ∀ (l : List α) (i : Nat), idxOfFirst p l = some i → i < l.length := by
  intro l
  induction l with
  | nil => intro i h; simp [idxOfFirst] at h
  | cons x xs ih =>
    intro i h
    by_cases hx : p x
    · simp [idxOfFirst, hx] at h
      subst h
      simp
    · simp only [idxOfFirst, hx, Bool.false_eq_true, if_false, ite_false] at h
      rcases Option.map_eq_some'.mp h with ⟨j, hj, rfl⟩
      have := ih j hj
      simp only [List.length_cons]
      omega

theorem getD_mem {α : Type _} : ∀ (l : List α) (i : Nat) (d : α), i < l.length → l.getD i d ∈ l := by
  intro l
  induction l with
  | nil => intro i d h; simp at h
  | cons x xs ih =>
    intro i d h
    cases i with
    | zero => simp
    | succ j =>
      have := ih j d (by simpa using h)
      simp only [List.getD_cons_succ]
      exact List.mem_cons_of_mem _ this

/-! ## A concrete 3-seat table (blinds 10/20, three 1000-chip seats) -/

/-- Three seats with ids 10, 11, 12 and 1000 chips each at a 10/20
table. -/
def engine3seats : PokerEngine :=
  let e := PokerEngine.init 100 10 20
  let e := (addPlayer e 10 "p0" 1000 false).1
  let e := (addPlayer e 11 "p1" 1000 false).1
  (addPlayer e 12 "p2" 1000 false).1

/-- The state right after `start_new_hand` on the 3-seat table (one
legal shuffle outcome of the fresh deck). -/
def hand3 : PokerEngine := (startNewHand engine3seats pokerDeckCards).1

/-! ## Claim C4 -/

/-- Claim C4: `execute_action` called with a seat id whose seat is not
the current actor, or with an action not in that seat's valid actions,
returns `false` and leaves the whole table state unchanged. -/
theorem claim_C4_invalid_action_rejected
    (e : PokerEngine) (pid : Nat) (action : PlayerAction) (amount : Int)
    (h : ∀ p, getPlayerById e pid = some p →
      getCurrentPlayer e ≠ some p ∨ action ∉ getValidActions e p) :
    executeAction e pid action amount = (e, false) := by
  unfold executeAction
  rcases hfi : findPlayerIdx e pid with _ | idx
  · rfl
  · have hbyid : getPlayerById e pid = some (e.players.getD idx default) := by
      rw [getPlayerById_models, hfi]
      rfl
    rcases h _ hbyid with hcur | hval
    · simp only [hfi, if_pos hcur]
    · by_cases hcur : getCurrentPlayer e ≠ some (e.players.getD idx default)
      · simp only [hfi, if_pos hcur]
      · simp only [hfi, if_neg hcur, if_pos hval]

/-- Witness for C4: in the concrete 3-seat hand, seat 11 (not the
current actor) attempting to call is rejected with no state change. -/
theorem claim_C4_witness :
    executeAction hand3 11 PlayerAction.CALL 0 = (hand3, false) :=
  claim_C4_invalid_action_rejected hand3 11 PlayerAction.CALL 0
    (by decide)

/-! ## Claim C8 -/

/-- Claim C8: when RAISE is otherwise valid for the current actor but
the submitted amount is below bet-to-match plus the minimum raise
increment, `execute_action` returns `false` and leaves the table state
unchanged (nothing is posted, no indices move, no history is recorded). -/
theorem claim_C8_small_raise_rejected
    (e : PokerEngine) (pid : Nat) (amount : Int) (p : Player)
    (hfound : getPlayerById e pid = some p)
    (hcur : getCurrentPlayer e = some p)
    (hvalid : PlayerAction.RAISE ∈ getValidActions e p)
    (hsmall : amount < e.current_bet_amount + e.min_raise_amount) :
    executeAction e pid PlayerAction.RAISE amount = (e, false) := by
  unfold executeAction
  rcases hfi : findPlayerIdx e pid with _ | idx
  · rfl
  · have hp : e.players.getD idx default = p := by
      rw [getPlayerById_models, hfi] at hfound
      exact Option.some.inj hfound
    have hc : ¬ getCurrentPlayer e ≠ some p := by simp [hcur]
    have hv : ¬ PlayerAction.RAISE ∉ getValidActions e p := by simp [hvalid]
    simp only [hfi, hp]
    rw [if_neg hc, if_neg hv, if_pos hsmall]

/-- Witness for C8: in the concrete 3-seat hand (bet-to-match 20,
minimum raise 20), the current actor submitting RAISE 30 is rejected
with no state change. -/
theorem claim_C8_witness :
    executeAction hand3 10 PlayerAction.RAISE 30 = (hand3, false) :=
  claim_C8_small_raise_rejected hand3 10 30 (hand3.players.getD 0 default)
    (by decide) (by decide) (by decide) (by decide)



/-! ## Claim C5 — the 3-seat blinds/betting scenario -/

/-- Claim C5: with blinds 10/20 and the dealer at seat 0 after
`start_new_hand`, seat 1 posts the small blind 10, seat 2 posts the big
blind 20, and seat 0 acts first pre-flop; after seat 0 calls 20, seat 1
calls (adding 10 to reach 20) and seat 2 checks, the betting round
completes, the phase becomes FLOP and the total pot is 60. -/
theorem claim_C5_three_seat_scenario :
    (startNewHand engine3seats pokerDeckCards).2 = true ∧
    hand3.dealer_index = 0 ∧
    (hand3.players.getD 1 default).current_bet = 10 ∧
    (hand3.players.getD 1 default).chips = 990 ∧
    (hand3.players.getD 2 default).current_bet = 20 ∧
    (hand3.players.getD 2 default).chips = 980 ∧
    hand3.current_player_index = 0 ∧
    (getCurrentPlayer hand3).map (fun p => p.user_id) = some 10 ∧
    ((executeAction hand3 10 PlayerAction.CALL 0).2 = true ∧
     (let s1 := (executeAction hand3 10 PlayerAction.CALL 0).1
      (executeAction s1 11 PlayerAction.CALL 0).2 = true ∧
      (let s2 := (executeAction s1 11 PlayerAction.CALL 0).1
       (s2.players.getD 1 default).current_bet = 20 ∧
       (s2.players.getD 1 default).chips = 980 ∧
       (executeAction s2 12 PlayerAction.CHECK 0).2 = true ∧
       (let s3 := (executeAction s2 12 PlayerAction.CHECK 0).1
        s3.phase = GamePhase.FLOP ∧ (getGameState s3).pot_total = 60)))) := by
  decide



/-! ## Claim C2 — side pots -/

/-- Spec-side definition (deliberately not from the source): the layered side-pot
construction of spec §4.3, to compare with the source's
`_create_side_pots`.  Seats are grouped by distinct total-hand
contribution levels among non-folded seats (ascending); each layer
forms one pot whose amount is layer-width times the number of
contributors at or above the layer, eligible to exactly the non-folded
seats that contributed at least that threshold. -/
def sidePotsSpec (players : List Player) : List Pot :=
  let inHand := players.filter (fun p => !p.is_folded)
  let levels := sortAsc (uniqKeepFirst (inHand.map (fun p => p.total_bet_in_hand)))
  (levels.foldl (fun (acc : Int × List Pot) L =>
      let width := L - acc.1
      let atOrAbove := inHand.filter (fun p => L ≤ p.total_bet_in_hand)
      (L, acc.2 ++ [Pot.mk (width * (atOrAbove.length : Int))
                      (atOrAbove.map (fun p => p.user_id))]))
    ((0 : Int), ([] : List Pot))).2

/-- Apply a scripted list of `(seat id, action, amount)` calls. -/
def runScript : PokerEngine → List (Nat × PlayerAction × Int) → PokerEngine
  | e, [] => e
  | e, s :: rest => runScript (executeAction e s.1 s.2.1 s.2.2).1 rest

/-- Seat B (id 2, stack 200) and seat C (id 3, stack 200) ahead of seat
A (id 1, stack 50): the all-in side-pot scenario table. -/
def sidePotEngine0 : PokerEngine :=
  let e := PokerEngine.init 1 10 20
  let e := (addPlayer e 2 "B" 200 false).1
  let e := (addPlayer e 3 "C" 200 false).1
  (addPlayer e 1 "A" 50 false).1

/-- The scenario play-out: pre-flop B raises to 50, C calls, A goes
all-in for its last 30 (total 50), B checks; on the flop C bets 100
(total 150), B calls (total 150), C checks; the turn and river are
checked down to showdown. -/
def sidePotFinal : PokerEngine :=
  runScript (startNewHand sidePotEngine0 pokerDeckCards).1
    [(2, PlayerAction.RAISE, 50), (3, PlayerAction.CALL, 0), (1, PlayerAction.ALL_IN, 0),
     (2, PlayerAction.CHECK, 0),
     (3, PlayerAction.RAISE, 100), (2, PlayerAction.CALL, 0), (3, PlayerAction.CHECK, 0),
     (3, PlayerAction.CHECK, 0), (3, PlayerAction.CHECK, 0)]

/-- Claim C2, on the code: in the all-in scenario (A all-in for 50
total, B and C at 150 total, nobody folded) the engine reaches showdown
with a single pot of 350 eligible to all of A, B, C — not the main pot
of 150 (A,B,C) plus side pot of 200 (B,C) the claim requires — while
the spec's layered construction on the very same seats yields exactly
those two pots. -/
theorem claim_C2_single_pot_bug :
    sidePotFinal.phase = GamePhase.FINISHED ∧
    sidePotFinal.players.map
      (fun p => (p.user_id, p.total_bet_in_hand, p.is_folded, p.is_all_in)) =
      [(2, 150, false, false), (3, 150, false, false), (1, 50, false, true)] ∧
    sidePotFinal.pots = [Pot.mk 350 [2, 3, 1]] ∧
    sidePotsSpec sidePotFinal.players = [Pot.mk 150 [2, 3, 1], Pot.mk 200 [2, 3]] := by
  decide



/-! ## Claim C9 — the snapshot and hole cards -/

/-- Counterexample to C9: `get_game_state` takes no viewer and the
snapshot of the concrete 3-seat hand carries the hole cards of seat 1
and seat 2 simultaneously — they cannot both be "the seat the snapshot
is privately rendered for", so hole cards are not restricted to a
private view. -/
theorem claim_C9_counterexample :
    ((getGameState hand3).players.getD 1 default).hole_cards = ["A♣️", "J♣️"] ∧
    ((getGameState hand3).players.getD 2 default).hole_cards = ["K♣️", "10♣️"] := by
  decide

/-- Claim C9 as amended: the snapshot's per-seat view carries the
public fields (stack, current bet, fold/all-in flags) and,
unconditionally, that seat's hole-card strings — `get_game_state` has
no notion of a private viewer, so any privacy filtering must happen in
the presentation layer. -/
theorem claim_C9_amended (e : PokerEngine) (p : Player) (hp : p ∈ e.players) :
    ∃ v ∈ (getGameState e).players,
      v.user_id = p.user_id ∧ v.name = p.name ∧ v.chips = p.chips ∧
      v.current_bet = p.current_bet ∧ v.is_folded = p.is_folded ∧
      v.is_all_in = p.is_all_in ∧ v.hole_cards = p.hole_cards.map cardStr :=
  ⟨_, List.mem_map.mpr ⟨p, hp, rfl⟩, rfl, rfl, rfl, rfl, rfl, rfl, rfl⟩

/-- Witness for the amended C9 at seat 0 of the concrete hand. -/
theorem claim_C9_witness :
    ∃ v ∈ (getGameState hand3).players,
      v.user_id = (hand3.players.getD 0 default).user_id ∧
      v.name = (hand3.players.getD 0 default).name ∧
      v.chips = (hand3.players.getD 0 default).chips ∧
      v.current_bet = (hand3.players.getD 0 default).current_bet ∧
      v.is_folded = (hand3.players.getD 0 default).is_folded ∧
      v.is_all_in = (hand3.players.getD 0 default).is_all_in ∧
      v.hole_cards = (hand3.players.getD 0 default).hole_cards.map cardStr :=
  claim_C9_amended hand3 (hand3.players.getD 0 default) (by decide)



/-! ## Claim C1 — chip conservation -/

/-- Sum of all seats' chip stacks. -/
def sumChips (e : PokerEngine) : Int := (e.players.map (fun p => p.chips)).sum

/-- Sum of all seats' whole-hand contributions. -/
def sumBets (e : PokerEngine) : Int :=
  (e.players.map (fun p => p.total_bet_in_hand)).sum

/-- Sum of all pot amounts. -/
def sumPots (e : PokerEngine) : Int := (e.pots.map (fun q => q.amount)).sum

theorem sum_map_set (f : Player → Int) :
    ∀ (l : List Player) (i : Nat) (x p : Player), l.get? i = some p →
    ((l.set i x).map f).sum = (l.map f).sum - f p + f x := by
  intro l
  induction l with
  | nil => intro i x p h; simp at h
  | cons y ys ih =>
    intro i x p h
    cases i with
    | zero =>
      rw [List.get?_cons_zero] at h
      obtain rfl : y = p := Option.some.inj h
      simp only [List.set, List.map_cons, List.sum_cons]
      ring
    | succ j =>
      rw [List.get?_cons_succ] at h
      have := ih j x p h
      simp only [List.set, List.map_cons, List.sum_cons, this]
      ring

/-- A projection preserved at every fold step is preserved by the fold. -/
theorem foldl_proj_eq {α β : Type _} (F : PokerEngine → β)
    (step : PokerEngine → α → PokerEngine)
    (h : ∀ e x, F (step e x) = F e) :
    ∀ (l : List α) (e : PokerEngine), F (l.foldl step e) = F e := by
  intro l
  induction l with
  | nil => intro e; rfl
  | cons x xs ih =>
    intro e
    rw [List.foldl_cons, ih, h]

/-- `_post_bet` moves chips between stack and contribution fields:
the sum of stacks plus contributions never changes. -/
theorem postBet_conserve (e : PokerEngine) (i : Nat) (amt : Int) :
    sumChips (postBet e i amt) + sumBets (postBet e i amt) =
      sumChips e + sumBets e := by
  unfold postBet
  rcases hp : e.players.get? i with _ | p
  · rfl
  · simp only [sumChips, sumBets]
    by_cases hz : p.chips - min amt p.chips = 0
    · rw [if_pos hz]
      rw [sum_map_set _ _ _ _ _ hp, sum_map_set _ _ _ _ _ hp]
      ring
    · rw [if_neg hz]
      rw [sum_map_set _ _ _ _ _ hp, sum_map_set _ _ _ _ _ hp]
      ring


theorem sum_map_zero : ∀ l : List Player, (l.map (fun _ => (0 : Int))).sum = 0 := by
  intro l
  induction l with
  | nil => rfl
  | cons x xs ih => simp [ih]

/-- Dealing hole cards never moves chips or contributions. -/
theorem dealHoleRound_conserve (e : PokerEngine) (n : Nat) :
    sumChips (dealHoleRound e n) + sumBets (dealHoleRound e n) =
      sumChips e + sumBets e := by
  unfold dealHoleRound
  refine foldl_proj_eq (fun e => sumChips e + sumBets e) _ ?_ _ e
  intro e i
  unfold dealHoleStep
  rcases hp : e.players.get? ((e.dealer_index + 1 + (i : Int)).emod
      (e.players.length : Int)).toNat with _ | p
  · simp only [hp]
  · simp only [hp]
    by_cases hs : p.is_sitting_out
    · rw [if_pos hs]
    · rw [if_neg hs]
      simp only [sumChips, sumBets]
      rw [sum_map_set _ _ _ _ _ hp, sum_map_set _ _ _ _ _ hp]
      ring

/-- `_post_blinds` conserves stacks plus contributions (two `_post_bet`
moves; the trailing field updates do not touch the seats). -/
theorem postBlinds_conserve (e : PokerEngine) :
    sumChips (postBlinds e) + sumBets (postBlinds e) = sumChips e + sumBets e := by
  have h : ∀ (x : PokerEngine) (i j : Nat) (a b : Int),
      sumChips (postBet (postBet x i a) j b) + sumBets (postBet (postBet x i a) j b) =
        sumChips x + sumBets x := by
    intro x i j a b
    rw [postBet_conserve, postBet_conserve]
  exact h e _ _ _ _



/-- The hand-start reset zeroes contributions and keeps stacks. -/
theorem startNewHand_conserve (e : PokerEngine) (d : List Card)
    (h : (startNewHand e d).2 = true) :
    sumChips (startNewHand e d).1 + sumBets (startNewHand e d).1 = sumChips e := by
  unfold startNewHand at h ⊢
  by_cases ha : (getActivePlayers e false false).length < 2
  · rw [if_pos ha] at h
    exact absurd h (by simp)
  · rw [if_neg ha]
    show sumChips (postBlinds _) + sumBets (postBlinds _) = sumChips e
    rw [postBlinds_conserve, dealHoleRound_conserve, dealHoleRound_conserve]
    show ((e.players.map resetForHand).map (fun p => p.chips)).sum +
        ((e.players.map resetForHand).map (fun p => p.total_bet_in_hand)).sum = sumChips e
    rw [List.map_map, List.map_map]
    rw [show ((fun p : Player => p.chips) ∘ resetForHand) = (fun p : Player => p.chips)
          from rfl,
        show ((fun p : Player => p.total_bet_in_hand) ∘ resetForHand) =
          (fun _ : Player => (0 : Int)) from rfl]
    rw [sum_map_zero]
    simp [sumChips]

theorem dealCommunity_players (e : PokerEngine) (n : Nat) :
    (dealCommunity e n).players = e.players := by
  have h := foldl_proj_eq (fun x => x.players)
    (fun (e : PokerEngine) (_ : Nat) =>
      let dealt := dealFrom e.deck
      { e with deck := dealt.2, community_cards := e.community_cards ++ [dealt.1] })
    (fun e x => rfl) (List.range n) { e with deck := (dealFrom e.deck).2 }
  exact h

theorem payPot_phase (e : PokerEngine) (pot : Pot) : (payPot e pot).phase = e.phase := by
  unfold payPot
  dsimp only
  repeat' split
  all_goals rfl

theorem determineWinners_phase (e : PokerEngine) :
    (determineWinners e).phase = GamePhase.FINISHED := by
  unfold determineWinners
  exact foldl_proj_eq (fun x => x.phase) payPot payPot_phase _ _

/-- Winner payout aside, the whole of `_next_phase` only moves the
round bets into the (rebuilt) pot and deals cards: stacks plus
contributions are untouched. -/
theorem nextPhaseCore_conserve (e : PokerEngine) :
    sumChips (nextPhaseCore e) + sumBets (nextPhaseCore e) =
      sumChips e + sumBets e := by
  have hp : (nextPhaseCore e).players = e.players.map clearRoundBet := by
    unfold nextPhaseCore
    dsimp only
    split
    · rw [dealCommunity_players]
      rfl
    · split
      · rw [dealCommunity_players]
        rfl
      · split
        · rw [dealCommunity_players]
          rfl
        · split
          · rfl
          · rfl
  show ((nextPhaseCore e).players.map (fun p => p.chips)).sum +
      ((nextPhaseCore e).players.map (fun p => p.total_bet_in_hand)).sum =
      sumChips e + sumBets e
  rw [hp, List.map_map, List.map_map]
  rw [show ((fun p : Player => p.chips) ∘ clearRoundBet) = (fun p : Player => p.chips)
        from rfl,
      show ((fun p : Player => p.total_bet_in_hand) ∘ clearRoundBet) =
        (fun p : Player => p.total_bet_in_hand) from rfl]
  rfl

theorem nextPhase_conserve (e : PokerEngine)
    (hfin : (nextPhase e).phase ≠ GamePhase.FINISHED) :
    sumChips (nextPhase e) + sumBets (nextPhase e) = sumChips e + sumBets e := by
  unfold nextPhase at hfin ⊢
  by_cases hc : (nextPhaseCore e).phase = GamePhase.SHOWDOWN ∨
      (getActivePlayers (nextPhaseCore e) true false).length ≤ 1
  · rw [if_pos hc] at hfin
    exact absurd (determineWinners_phase _) hfin
  · rw [if_neg hc]
    exact nextPhaseCore_conserve e

theorem finishAction_conserve (e1 : PokerEngine) (pid : Nat) (a : PlayerAction)
    (amt : Int) (hfin : (finishAction e1 pid a amt).1.phase ≠ GamePhase.FINISHED) :
    sumChips (finishAction e1 pid a amt).1 + sumBets (finishAction e1 pid a amt).1 =
      sumChips e1 + sumBets e1 := by
  unfold finishAction at hfin ⊢
  by_cases hcomp : isBettingRoundComplete
      { e1 with action_history := e1.action_history ++ [ActionRecord.mk pid a.value amt] } = true
  · rw [if_pos hcomp] at hfin ⊢
    exact nextPhase_conserve _ hfin
  · rw [if_neg hcomp]
    rfl


theorem get?_eq_some_getD {α : Type _} :
    ∀ (l : List α) (i : Nat) (d : α), i < l.length → l.get? i = some (l.getD i d) := by
  intro l
  induction l with
  | nil => intro i d h; simp at h
  | cons x xs ih =>
    intro i d h
    cases i with
    | zero => rfl
    | succ j => exact ih j d (by simpa using h)

/-- Every `execute_action` call that does not finish the hand (winner
payout) conserves stacks plus whole-hand contributions. -/
theorem executeAction_conserve (e : PokerEngine) (pid : Nat) (a : PlayerAction)
    (amt : Int) (hfin : (executeAction e pid a amt).1.phase ≠ GamePhase.FINISHED) :
    sumChips (executeAction e pid a amt).1 + sumBets (executeAction e pid a amt).1 =
      sumChips e + sumBets e := by
  unfold executeAction at hfin ⊢
  rcases hfi : findPlayerIdx e pid with _ | idx
  · simp only [hfi]
  · have hget : e.players.get? idx = some (e.players.getD idx default) :=
      get?_eq_some_getD _ _ _ (idxOfFirst_lt_length _ _ _ hfi)
    simp only [hfi] at hfin ⊢
    by_cases hcur : getCurrentPlayer e ≠ some (e.players.getD idx default)
    · rw [if_pos hcur]
    · rw [if_neg hcur] at hfin ⊢
      by_cases hval : a ∉ getValidActions e (e.players.getD idx default)
      · rw [if_pos hval]
      · rw [if_neg hval] at hfin ⊢
        cases a with
        | FOLD =>
          rw [finishAction_conserve _ _ _ _ hfin]
          simp only [sumChips, sumBets]
          rw [sum_map_set _ _ _ _ _ hget, sum_map_set _ _ _ _ _ hget]
          ring
        | CHECK =>
          rw [finishAction_conserve _ _ _ _ hfin]
        | CALL =>
          rw [finishAction_conserve _ _ _ _ hfin, postBet_conserve]
        | ALL_IN =>
          rw [finishAction_conserve _ _ _ _ hfin, postBet_conserve]
        | RAISE =>
          by_cases hsm : amt < e.current_bet_amount + e.min_raise_amount
          · rw [if_pos hsm]
          · rw [if_neg hsm] at hfin ⊢
            rw [finishAction_conserve _ _ _ _ hfin]
            exact postBet_conserve _ _ _

/-- Claim C1 as amended: the conserved quantity of the engine is the
sum of stacks plus the sum of per-seat whole-hand contributions.
`start_new_hand` (blind posting included) establishes it — the sum
after the start equals the stack sum before — and every
`execute_action` that does not pay out the hand (phase not FINISHED
afterwards) preserves it.  Pot objects only mirror the contributions at
phase transitions. -/
theorem claim_C1_contribution_conservation :
    (∀ (e : PokerEngine) (d : List Card), (startNewHand e d).2 = true →
      sumChips (startNewHand e d).1 + sumBets (startNewHand e d).1 = sumChips e) ∧
    (∀ (e : PokerEngine) (pid : Nat) (a : PlayerAction) (amt : Int),
      (executeAction e pid a amt).1.phase ≠ GamePhase.FINISHED →
      sumChips (executeAction e pid a amt).1 + sumBets (executeAction e pid a amt).1 =
        sumChips e + sumBets e) :=
  ⟨startNewHand_conserve, executeAction_conserve⟩

/-- Counterexample to C1 as stated: in the concrete 3-seat hand a
perfectly valid (accepted) CALL changes the sum of stacks plus pot
amounts — it is not a blind posting, yet the "stacks + pots" quantity
drops by the called 20 chips, because `execute_action` moves chips into
the seats' contribution fields and `Pot.amount` is only rebuilt at
phase transitions. -/
theorem claim_C1_counterexample :
    (executeAction hand3 10 PlayerAction.CALL 0).2 = true ∧
    sumChips (executeAction hand3 10 PlayerAction.CALL 0).1 +
        sumPots (executeAction hand3 10 PlayerAction.CALL 0).1 ≠
      sumChips hand3 + sumPots hand3 := by
  decide

/-- Witness for the amended C1 on the concrete 3-seat hand. -/
theorem claim_C1_witness :
    sumChips hand3 + sumBets hand3 = sumChips engine3seats ∧
    sumChips (executeAction hand3 10 PlayerAction.CALL 0).1 +
        sumBets (executeAction hand3 10 PlayerAction.CALL 0).1 =
      sumChips hand3 + sumBets hand3 :=
  ⟨claim_C1_contribution_conservation.1 engine3seats pokerDeckCards (by decide),
   claim_C1_contribution_conservation.2 hand3 10 PlayerAction.CALL 0 (by decide)⟩



/-! ## Claim C10 — non-negative stacks and the all-in flag -/

/-- The per-seat numeric facts every engine operation preserves. -/
structure PlayerOk (p : Player) : Prop where
  chips_nonneg : 0 ≤ p.chips
  bet_nonneg : 0 ≤ p.current_bet
  bet_le_total : p.current_bet ≤ p.total_bet_in_hand

/-- The engine invariant backing the non-negative-stack claim. -/
structure EngineInv (e : PokerEngine) : Prop where
  sb_nonneg : 0 ≤ e.small_blind
  bb_nonneg : 0 ≤ e.big_blind
  cba_nonneg : 0 ≤ e.current_bet_amount
  minr_nonneg : 0 ≤ e.min_raise_amount
  players_ok : ∀ p ∈ e.players, PlayerOk p
  pots_nonneg : ∀ q ∈ e.pots, 0 ≤ q.amount

/-- States reachable through the engine's public operations, starting
from a constructor call with non-negative blinds and adding players
with non-negative buy-ins. -/
inductive Reachable : PokerEngine → Prop
  | init (channel_id : Nat) (sb bb : Int) (hsb : 0 ≤ sb) (hbb : 0 ≤ bb) :
      Reachable (PokerEngine.init channel_id sb bb)
  | add (e : PokerEngine) (uid : Nat) (nm : String) (chips : Int) (bot : Bool)
      (hr : Reachable e) (hc : 0 ≤ chips) :
      Reachable (addPlayer e uid nm chips bot).1
  | remove (e : PokerEngine) (uid : Nat) (hr : Reachable e) :
      Reachable (removePlayer e uid).1
  | start (e : PokerEngine) (d : List Card) (hr : Reachable e) :
      Reachable (startNewHand e d).1
  | act (e : PokerEngine) (pid : Nat) (a : PlayerAction) (amt : Int)
      (hr : Reachable e) :
      Reachable (executeAction e pid a amt).1

/-- A fold preserves an invariant its step preserves, given a side fact
about the folded elements. -/
theorem foldl_inv_mem {α : Type _} (P : PokerEngine → Prop) (Q : α → Prop)
    (step : PokerEngine → α → PokerEngine)
    (h : ∀ e x, P e → Q x → P (step e x)) :
    ∀ (l : List α) (e : PokerEngine), (∀ x ∈ l, Q x) → P e → P (l.foldl step e) := by
  intro l
  induction l with
  | nil => intro e _ he; exact he
  | cons x xs ih =>
    intro e hq he
    rw [List.foldl_cons]
    exact ih _ (fun y hy => hq y (List.mem_cons_of_mem _ hy))
      (h e x he (hq x (by simp)))

theorem addPlayer_inv {e : PokerEngine} (uid : Nat) (nm : String) {chips : Int}
    (bot : Bool) (h : EngineInv e) (hc : 0 ≤ chips) :
    EngineInv (addPlayer e uid nm chips bot).1 := by
  unfold addPlayer
  by_cases hg : 9 ≤ e.players.length ∨ e.players.any (fun p => p.user_id == uid)
  · rw [if_pos hg]
    exact h
  · rw [if_neg hg]
    refine ⟨h.sb_nonneg, h.bb_nonneg, h.cba_nonneg, h.minr_nonneg, ?_, h.pots_nonneg⟩
    intro p hp
    rcases List.mem_append.mp hp with hp | hp
    · exact h.players_ok p hp
    · have : p = Player.mk uid nm chips chips bot [] 0 0 false false false := by
        simpa using hp
      rw [this]
      exact ⟨hc, le_refl 0, le_refl 0⟩

theorem removePlayer_inv {e : PokerEngine} (uid : Nat) (h : EngineInv e) :
    EngineInv (removePlayer e uid).1 := by
  unfold removePlayer
  rcases hfi : findPlayerIdx e uid with _ | i
  · exact h
  · dsimp only
    by_cases hw : e.phase ≠ GamePhase.WAITING
    · rw [if_pos hw]
      refine ⟨h.sb_nonneg, h.bb_nonneg, h.cba_nonneg, h.minr_nonneg, ?_, h.pots_nonneg⟩
      intro p hp
      rcases List.mem_or_eq_of_mem_set hp with hp | hp
      · exact h.players_ok p hp
      · have hm : e.players.getD i default ∈ e.players :=
          getD_mem _ _ _ (idxOfFirst_lt_length _ _ _ hfi)
        have hold := h.players_ok _ hm
        rw [hp]
        exact ⟨hold.chips_nonneg, hold.bet_nonneg, hold.bet_le_total⟩
    · rw [if_neg hw]
      refine ⟨h.sb_nonneg, h.bb_nonneg, h.cba_nonneg, h.minr_nonneg, ?_, h.pots_nonneg⟩
      intro p hp
      exact h.players_ok p (List.mem_of_mem_eraseIdx hp)

/-- `_post_bet` preserves the invariant, provided the posted amount is
either non-negative or at least the negation of the seat's current
round bet (both hold at every call site). -/
theorem postBet_inv {e : PokerEngine} {i : Nat} {amt : Int} (h : EngineInv e)
    (hamt : ∀ p, e.players.get? i = some p → 0 ≤ amt ∨ 0 ≤ p.current_bet + amt) :
    EngineInv (postBet e i amt) := by
  unfold postBet
  rcases hp : e.players.get? i with _ | p
  · exact h
  · have hpm : p ∈ e.players := List.get?_mem hp
    have hok := h.players_ok p hpm
    have hbounds : 0 ≤ p.chips - min amt p.chips ∧
        0 ≤ p.current_bet + min amt p.chips := by
      rcases hamt p hp with hnn | hcb
      · rcases le_total amt p.chips with hle | hle
        · rw [min_eq_left hle]
          constructor
          · omega
          · have := hok.bet_nonneg
            omega
        · rw [min_eq_right hle]
          have := hok.chips_nonneg
          have := hok.bet_nonneg
          constructor <;> omega
      · rcases le_total amt p.chips with hle | hle
        · rw [min_eq_left hle]
          have := hok.chips_nonneg
          constructor <;> omega
        · rw [min_eq_right hle]
          have := hok.chips_nonneg
          have := hok.bet_nonneg
          constructor <;> omega
    have hsets : ∀ q ∈ e.players.set i
        (if p.chips - min amt p.chips = 0 then
          { p with chips := p.chips - min amt p.chips,
                   current_bet := p.current_bet + min amt p.chips,
                   total_bet_in_hand := p.total_bet_in_hand + min amt p.chips,
                   is_all_in := true }
        else
          { p with chips := p.chips - min amt p.chips,
                   current_bet := p.current_bet + min amt p.chips,
                   total_bet_in_hand := p.total_bet_in_hand + min amt p.chips }),
        PlayerOk q := by
      intro q hq
      rcases List.mem_or_eq_of_mem_set hq with hq | hq
      · exact h.players_ok q hq
      · have hble := hok.bet_le_total
        rcases hq with rfl
        by_cases hz : p.chips - min amt p.chips = 0
        · rw [if_pos hz]
          refine ⟨?_, ?_, ?_⟩ <;> dsimp only <;> omega
        · rw [if_neg hz]
          refine ⟨?_, ?_, ?_⟩ <;> dsimp only <;> omega
    exact ⟨h.sb_nonneg, h.bb_nonneg, h.cba_nonneg, h.minr_nonneg, hsets, h.pots_nonneg⟩



theorem postBet_sb_inv {x : PokerEngine} (i : Nat) (hx : EngineInv x) :
    EngineInv (postBet x i x.small_blind) :=
  postBet_inv hx (fun _ _ => Or.inl hx.sb_nonneg)

theorem postBet_bb_inv {x : PokerEngine} (i : Nat) (hx : EngineInv x) :
    EngineInv (postBet x i x.big_blind) :=
  postBet_inv hx (fun _ _ => Or.inl hx.bb_nonneg)

theorem postBlinds_shape_inv {x : PokerEngine} (i j : Nat) (ci li : Int)
    (hx : EngineInv x) :
    EngineInv { postBet (postBet x i x.small_blind) j (postBet x i x.small_blind).big_blind with
        current_bet_amount :=
          (postBet (postBet x i x.small_blind) j (postBet x i x.small_blind).big_blind).big_blind,
        min_raise_amount :=
          (postBet (postBet x i x.small_blind) j (postBet x i x.small_blind).big_blind).big_blind,
        current_player_index := ci,
        last_raiser_index := li } := by
  have h2 := postBet_bb_inv j (postBet_sb_inv i hx)
  exact ⟨h2.sb_nonneg, h2.bb_nonneg, h2.bb_nonneg, h2.bb_nonneg, h2.players_ok,
    h2.pots_nonneg⟩

theorem postBlinds_inv {e : PokerEngine} (h : EngineInv e) :
    EngineInv (postBlinds e) := by
  unfold postBlinds
  dsimp only
  exact postBlinds_shape_inv _ _ _ _ h

theorem dealHoleRound_inv {e : PokerEngine} (n : Nat) (h : EngineInv e) :
    EngineInv (dealHoleRound e n) := by
  unfold dealHoleRound
  refine foldl_inv_mem EngineInv (fun _ => True) dealHoleStep ?_ _ _ (fun _ _ => trivial) h
  intro e i hi _
  unfold dealHoleStep
  dsimp only
  rcases hp : e.players.get? ((e.dealer_index + 1 + (i : Int)).emod
      (e.players.length : Int)).toNat with _ | p
  · exact hi
  · dsimp only
    by_cases hs : p.is_sitting_out
    · rw [if_pos hs]
      exact hi
    · rw [if_neg hs]
      refine ⟨hi.sb_nonneg, hi.bb_nonneg, hi.cba_nonneg, hi.minr_nonneg, ?_, hi.pots_nonneg⟩
      intro q hq
      rcases List.mem_or_eq_of_mem_set hq with hq | hq
      · exact hi.players_ok q hq
      · have hold := hi.players_ok p (List.get?_mem hp)
        rw [hq]
        exact ⟨hold.chips_nonneg, hold.bet_nonneg, hold.bet_le_total⟩

theorem startNewHand_inv {e : PokerEngine} (d : List Card) (h : EngineInv e) :
    EngineInv (startNewHand e d).1 := by
  unfold startNewHand
  by_cases ha : (getActivePlayers e false false).length < 2
  · rw [if_pos ha]
    exact h
  · rw [if_neg ha]
    have hreset : EngineInv { e with
        hand_number := e.hand_number + 1
        deck := d
        community_cards := []
        pots := [Pot.mk 0 ((getActivePlayers e false false).map (fun (p : Player) => p.user_id))]
        action_history := []
        phase := GamePhase.PRE_FLOP
        players := e.players.map resetForHand } := by
      refine ⟨h.sb_nonneg, h.bb_nonneg, h.cba_nonneg, h.minr_nonneg, ?_, ?_⟩
      · intro p hp
        rcases List.mem_map.mp hp with ⟨q, hq, rfl⟩
        exact ⟨(h.players_ok q hq).chips_nonneg, le_refl 0, le_refl 0⟩
      · intro q hq
        have : q = Pot.mk 0 ((getActivePlayers e false false).map (fun (p : Player) => p.user_id)) := by
          simpa using hq
        rw [this]
    have hdealer : EngineInv { { e with
        hand_number := e.hand_number + 1
        deck := d
        community_cards := []
        pots := [Pot.mk 0 ((getActivePlayers e false false).map (fun (p : Player) => p.user_id))]
        action_history := []
        phase := GamePhase.PRE_FLOP
        players := e.players.map resetForHand } with
        dealer_index := getNextPlayerIndex (e.players.map resetForHand)
          e.dealer_index false false } :=
      ⟨hreset.sb_nonneg, hreset.bb_nonneg, hreset.cba_nonneg, hreset.minr_nonneg,
       hreset.players_ok, hreset.pots_nonneg⟩
    exact postBlinds_inv (dealHoleRound_inv _ (dealHoleRound_inv _ hdealer))

theorem dealCommunityStep_inv {e : PokerEngine} (i : Nat) (h : EngineInv e) :
    EngineInv (dealCommunityStep e i) :=
  ⟨h.sb_nonneg, h.bb_nonneg, h.cba_nonneg, h.minr_nonneg, h.players_ok, h.pots_nonneg⟩

theorem dealCommunity_inv {e : PokerEngine} (n : Nat) (h : EngineInv e) :
    EngineInv (dealCommunity e n) := by
  unfold dealCommunity
  refine foldl_inv_mem EngineInv (fun _ => True) dealCommunityStep
    (fun e x hi _ => dealCommunityStep_inv x hi) _ _ (fun _ _ => trivial) ?_
  exact ⟨h.sb_nonneg, h.bb_nonneg, h.cba_nonneg, h.minr_nonneg, h.players_ok, h.pots_nonneg⟩

theorem pay_players_inv {e : PokerEngine} (h : EngineInv e) (w : Int) (hw : 0 ≤ w)
    (sel : Player → Bool) :
    EngineInv { e with players := e.players.map (fun p => if sel p then { p with chips := p.chips + w } else p) } := by
  refine ⟨h.sb_nonneg, h.bb_nonneg, h.cba_nonneg, h.minr_nonneg, ?_, h.pots_nonneg⟩
  intro p hp
  rcases List.mem_map.mp hp with ⟨q, hqm, rfl⟩
  have hold := h.players_ok q hqm
  by_cases hsel : sel q
  · rw [if_pos hsel]
    have := hold.chips_nonneg
    exact ⟨by dsimp only; omega, hold.bet_nonneg, hold.bet_le_total⟩
  · rw [if_neg hsel]
    exact hold

theorem payPot_inv {e : PokerEngine} {pot : Pot} (h : EngineInv e)
    (hq : 0 ≤ pot.amount) : EngineInv (payPot e pot) := by
  unfold payPot
  dsimp only
  repeat' split
  all_goals first
    | exact h
    | exact pay_players_inv h _ (Int.fdiv_nonneg hq (Int.natCast_nonneg _)) _



theorem determineWinners_inv {e : PokerEngine} (h : EngineInv e) :
    EngineInv (determineWinners e) := by
  unfold determineWinners
  dsimp only
  refine foldl_inv_mem EngineInv (fun pot => 0 ≤ pot.amount) payPot
    (fun _ _ hi hx => payPot_inv hi hx) _ _ ?_ ?_
  · exact h.pots_nonneg
  · exact ⟨h.sb_nonneg, h.bb_nonneg, h.cba_nonneg, h.minr_nonneg, h.players_ok,
      h.pots_nonneg⟩

theorem roundReset_inv {e : PokerEngine} (h : EngineInv e) :
    EngineInv (roundReset e) := by
  unfold roundReset
  dsimp only
  refine ⟨h.sb_nonneg, h.bb_nonneg, le_refl 0, h.bb_nonneg, ?_, ?_⟩
  · intro p hp
    rcases List.mem_map.mp hp with ⟨q, hq, rfl⟩
    have hold := h.players_ok q hq
    exact ⟨hold.chips_nonneg, le_refl 0,
      le_trans hold.bet_nonneg hold.bet_le_total⟩
  · intro q hq
    have hqe : q = Pot.mk ((e.players.map (fun p => p.total_bet_in_hand)).sum)
        ((getActivePlayers e true false).map (fun (p : Player) => p.user_id)) := by
      simpa [createSidePots] using hq
    rw [hqe]
    refine List.sum_nonneg ?_
    intro x hx
    rcases List.mem_map.mp hx with ⟨q', hq', rfl⟩
    have hold := h.players_ok q' hq'
    exact le_trans hold.bet_nonneg hold.bet_le_total

theorem nextPhaseCore_inv {e : PokerEngine} (h : EngineInv e) :
    EngineInv (nextPhaseCore e) := by
  have hr := roundReset_inv h
  unfold nextPhaseCore
  dsimp only
  split
  · exact dealCommunity_inv _ ⟨hr.sb_nonneg, hr.bb_nonneg, hr.cba_nonneg,
      hr.minr_nonneg, hr.players_ok, hr.pots_nonneg⟩
  · split
    · exact dealCommunity_inv _ ⟨hr.sb_nonneg, hr.bb_nonneg, hr.cba_nonneg,
        hr.minr_nonneg, hr.players_ok, hr.pots_nonneg⟩
    · split
      · exact dealCommunity_inv _ ⟨hr.sb_nonneg, hr.bb_nonneg, hr.cba_nonneg,
          hr.minr_nonneg, hr.players_ok, hr.pots_nonneg⟩
      · split
        · exact ⟨hr.sb_nonneg, hr.bb_nonneg, hr.cba_nonneg, hr.minr_nonneg,
            hr.players_ok, hr.pots_nonneg⟩
        · exact hr

theorem nextPhase_inv {e : PokerEngine} (h : EngineInv e) :
    EngineInv (nextPhase e) := by
  unfold nextPhase
  split
  · exact determineWinners_inv (nextPhaseCore_inv h)
  · exact nextPhaseCore_inv h

theorem finishAction_inv {e1 : PokerEngine} (pid : Nat) (a : PlayerAction)
    (amt : Int) (h : EngineInv e1) : EngineInv (finishAction e1 pid a amt).1 := by
  unfold finishAction
  dsimp only
  have h2 : EngineInv { e1 with action_history :=
      e1.action_history ++ [ActionRecord.mk pid a.value amt] } :=
    ⟨h.sb_nonneg, h.bb_nonneg, h.cba_nonneg, h.minr_nonneg, h.players_ok, h.pots_nonneg⟩
  split
  · exact nextPhase_inv h2
  · exact ⟨h2.sb_nonneg, h2.bb_nonneg, h2.cba_nonneg, h2.minr_nonneg, h2.players_ok,
      h2.pots_nonneg⟩



theorem postBet_length (e : PokerEngine) (i : Nat) (amt : Int) :
    (postBet e i amt).players.length = e.players.length := by
  unfold postBet
  cases hp : e.players.get? i
  · rfl
  · simp

theorem executeAction_inv {e : PokerEngine} (pid : Nat) (a : PlayerAction)
    (amt : Int) (h : EngineInv e) : EngineInv (executeAction e pid a amt).1 := by
  unfold executeAction
  rcases hfi : findPlayerIdx e pid with _ | idx
  · exact h
  · have hlt := idxOfFirst_lt_length _ _ _ hfi
    dsimp only
    by_cases hcur : getCurrentPlayer e ≠ some (e.players.getD idx default)
    · rw [if_pos hcur]
      exact h
    · rw [if_neg hcur]
      by_cases hval : a ∉ getValidActions e (e.players.getD idx default)
      · rw [if_pos hval]
        exact h
      · rw [if_neg hval]
        have hcur' : getCurrentPlayer e = some (e.players.getD idx default) := by
          by_contra hne
          exact hcur hne
        have hcpi : e.players.get? e.current_player_index.toNat =
            some (e.players.getD idx default) := by
          unfold getCurrentPlayer at hcur'
          by_cases hneg : e.current_player_index = -1
          · rw [if_pos hneg] at hcur'
            exact absurd hcur' (by simp)
          · rw [if_neg hneg] at hcur'
            exact hcur'
        cases a with
        | FOLD =>
          refine finishAction_inv _ _ _ ?_
          refine ⟨h.sb_nonneg, h.bb_nonneg, h.cba_nonneg, h.minr_nonneg, ?_,
            h.pots_nonneg⟩
          intro q hq
          rcases List.mem_or_eq_of_mem_set hq with hq | hq
          · exact h.players_ok q hq
          · have hold := h.players_ok _ (getD_mem e.players idx default hlt)
            rw [hq]
            exact ⟨hold.chips_nonneg, hold.bet_nonneg, hold.bet_le_total⟩
        | CHECK => exact finishAction_inv _ _ _ h
        | CALL =>
          refine finishAction_inv _ _ _ (postBet_inv h ?_)
          intro q hq
          rw [hcpi] at hq
          obtain rfl : e.players.getD idx default = q := Option.some.inj hq
          right
          have := h.cba_nonneg
          omega
        | ALL_IN =>
          refine finishAction_inv _ _ _ (postBet_inv h ?_)
          intro q hq
          exact Or.inl (h.players_ok _ (getD_mem e.players idx default hlt)).chips_nonneg
        | RAISE =>
          by_cases hsm : amt < e.current_bet_amount + e.min_raise_amount
          · rw [if_pos hsm]
            exact h
          · rw [if_neg hsm]
            have hpb : EngineInv (postBet e e.current_player_index.toNat
                (e.current_bet_amount - (e.players.getD idx default).current_bet +
                  (amt - e.current_bet_amount))) := by
              refine postBet_inv h ?_
              intro q hq
              rw [hcpi] at hq
              obtain rfl : e.players.getD idx default = q := Option.some.inj hq
              right
              have h1 := h.cba_nonneg
              have h2 := h.minr_nonneg
              omega
            refine finishAction_inv _ _ _ ?_
            have hlen2 : idx < (postBet e e.current_player_index.toNat
                (e.current_bet_amount - (e.players.getD idx default).current_bet +
                  (amt - e.current_bet_amount))).players.length := by
              rw [postBet_length]
              exact hlt
            refine ⟨hpb.sb_nonneg, hpb.bb_nonneg, ?_, ?_, hpb.players_ok,
              hpb.pots_nonneg⟩
            · exact (hpb.players_ok _ (getD_mem _ _ _ hlen2)).bet_nonneg
            · show (0 : Int) ≤ amt - e.current_bet_amount
              have := h.minr_nonneg
              omega

/-- Every reachable engine state satisfies the invariant. -/
theorem reachable_inv : ∀ {e : PokerEngine}, Reachable e → EngineInv e := by
  intro e hr
  induction hr with
  | init cid sb bb hsb hbb =>
    refine ⟨hsb, hbb, le_refl 0, le_refl 0, ?_, ?_⟩
    · intro p hp
      simp [PokerEngine.init] at hp
    · intro q hq
      have : q = Pot.mk 0 [] := by simpa [PokerEngine.init] using hq
      rw [this]
  | add e uid nm chips bot hr hc ih => exact addPlayer_inv uid nm bot ih hc
  | remove e uid hr ih => exact removePlayer_inv uid ih
  | start e d hr ih => exact startNewHand_inv d ih
  | act e pid a amt hr ih => exact executeAction_inv pid a amt ih



/-- Claim C10: every chip-posting moves at most the seat's remaining stack
(`_post_bet` clamps the amount with `min(amount, player.chips)`), so in
every reachable engine state every seat's chip stack is non-negative; and
whenever `_post_bet` reduces a seat's stack to exactly zero, that same call
sets the seat's all-in flag. -/
theorem claim_C10_nonneg_stacks_and_allin :
    (∀ e, Reachable e → ∀ p ∈ e.players, 0 ≤ p.chips) ∧
    (∀ (e : PokerEngine) (i : Nat) (amt : Int) (p p' : Player),
      e.players.get? i = some p →
      (postBet e i amt).players.get? i = some p' →
      p.chips - p'.chips ≤ p.chips ∧
      (0 ≤ p.chips → 0 ≤ p'.chips) ∧
      (p'.chips = 0 → p'.is_all_in = true)) := by
  constructor
  · intro e hr p hp
    exact ((reachable_inv hr).players_ok p hp).chips_nonneg
  · intro e i amt p p' hp hp'
    have hlen : i < e.players.length := (List.get?_eq_some.mp hp).1
    unfold postBet at hp'
    rw [hp] at hp'
    dsimp only at hp'
    rw [List.get?_set_eq_of_lt _ hlen] at hp'
    have hmin := min_le_right amt p.chips
    by_cases hz : p.chips - min amt p.chips = 0
    · rw [if_pos hz] at hp'
      obtain rfl : _ = p' := Option.some.inj hp'
      refine ⟨?_, ?_, fun _ => rfl⟩
      · dsimp only
        omega
      · intro h0
        dsimp only
        omega
    · rw [if_neg hz] at hp'
      obtain rfl : _ = p' := Option.some.inj hp'
      refine ⟨?_, ?_, ?_⟩
      · dsimp only
        omega
      · intro h0
        dsimp only
        omega
      · intro hc
        exact absurd hc hz

theorem claim_C10_witness :
    ((0 : Int) ≤ (hand3.players.getD 0 default).chips) ∧
    ((hand3.players.getD 0 default).chips -
        ((postBet hand3 0 1000).players.getD 0 default).chips ≤
        (hand3.players.getD 0 default).chips ∧
      ((0 : Int) ≤ (hand3.players.getD 0 default).chips →
        0 ≤ ((postBet hand3 0 1000).players.getD 0 default).chips) ∧
      (((postBet hand3 0 1000).players.getD 0 default).chips = 0 →
        ((postBet hand3 0 1000).players.getD 0 default).is_all_in = true)) := by
  have hr : Reachable hand3 :=
    Reachable.start engine3seats pokerDeckCards
      (Reachable.add _ 12 "p2" 1000 false
        (Reachable.add _ 11 "p1" 1000 false
          (Reachable.add _ 10 "p0" 1000 false
            (Reachable.init 100 10 20 (by norm_num) (by norm_num))
            (by norm_num))
          (by norm_num))
        (by norm_num))
  constructor
  · exact claim_C10_nonneg_stacks_and_allin.1 hand3 hr
      (hand3.players.getD 0 default) (by decide)
  · exact claim_C10_nonneg_stacks_and_allin.2 hand3 0 1000
      (hand3.players.getD 0 default)
      ((postBet hand3 0 1000).players.getD 0 default)
      (by decide) (by decide)


end HRC
